import Mathlib

/-!
Verification of `src/astar_jps.rs`: a parent-aware A* variant (`astar_jps`)
built on a lazy-deletion binary heap and an insertion-ordered frontier map.

The Rust source is shallowly embedded as follows.

* `SmallestCostHolder`, its `Ord` (`cmpHolder`) and `PartialEq` (`holderBEq`)
  implementations are translated field for field.
* `std::collections::BinaryHeap` is modelled as a list of holders; `popMax`
  removes the first element that is maximal under `cmpHolder` (the element a
  max-heap pop returns); `push` is list cons.
* `indexmap::IndexMap<N, (usize, C)>` is modelled as a list of
  `(node, parent_index, cost)` triples in insertion order; `entry?` performs
  the key lookup returning the positional index and the stored value, insert
  appends, and an `Occupied` improvement is `List.set` at the same index.
* `usize::MAX` (the sentinel parent of the start node) is `USIZE_MAX`.
* The `while let` loop is driven by explicit fuel; `RunRes.outOfFuel` marks
  runs that did not finish within the given fuel.  The `.unwrap()` on
  `parents.get_index(index)` is modelled by the `RunRes.panicked` outcome.
* The lazily unfolded goal-to-start path iterator is modelled by `pathUnfold`,
  a list truncated after `parents.length` steps; when the parent chain is
  acyclic this equals the full unfold (an acyclic chain of positional indices
  cannot be longer than the store).
-/

set_option linter.unusedVariables false

namespace AstarJps

/-- Mirrors `struct SmallestCostHolder<K>` (lines 16-20 of astar_jps.rs). -/
structure SmallestCostHolder (C : Type) where
  estimated_cost : C
  cost : C
  index : Nat
deriving Repr, DecidableEq

/-- Mirrors `impl<K: Ord> Ord for SmallestCostHolder<K>` (lines 36-43):
`other.estimated_cost.cmp(&self.estimated_cost)` with the tie broken by
`self.cost.cmp(&other.cost)`. -/
def cmpHolder {C : Type} [LinearOrder C] (a b : SmallestCostHolder C) : Ordering :=
  match compare b.estimated_cost a.estimated_cost with
  | Ordering.eq => compare a.cost b.cost
  | s => s

/-- Mirrors `impl<K: PartialEq> PartialEq for SmallestCostHolder<K>`
(lines 24-28): structural on `(estimated_cost, cost)`, the `index` field is
not inspected. -/
def holderBEq {C : Type} [LinearOrder C] (a b : SmallestCostHolder C) : Bool :=
  decide (a.estimated_cost = b.estimated_cost) && decide (a.cost = b.cost)

/-- Model of `BinaryHeap::pop`: remove the first maximal element under
`cmpHolder` (`None` on the empty heap). -/
def popMax {C : Type} [LinearOrder C] :
    List (SmallestCostHolder C) → Option (SmallestCostHolder C × List (SmallestCostHolder C))
  | [] => none
  | a :: t =>
    match popMax t with
    | none => some (a, [])
    | some (m, rest) =>
      if cmpHolder a m = Ordering.lt then some (m, a :: rest) else some (a, t)

/-- The frontier store: `IndexMap<N, (usize, C)>` in insertion order, as a
list of `(node, parent_index, cost)` triples; the positional index of an
entry is its list position. -/
abbrev Store (N C : Type) := List (N × Nat × C)

/-- Model of the `IndexMap` key lookup underlying `parents.entry`: returns
`(positional index, parent_index, cost)` of the entry whose key is `k`. -/
def entry? {N C : Type} [DecidableEq N] : Store N C → N → Option (Nat × Nat × C)
  | [], _ => none
  | e :: t, k =>
    if e.1 = k then some (0, e.2) else (entry? t k).map fun r => (r.1 + 1, r.2)

/-- Model of `usize::MAX`, the sentinel parent index of the start node
(line 66). -/
def USIZE_MAX : Nat := 2 ^ 64 - 1

/-- The mutable state of the search loop: the binary heap `to_see` and the
frontier store `parents`. -/
structure AState (N C : Type) where
  toSee : List (SmallestCostHolder C)
  parents : Store N C
deriving Repr, DecidableEq

/-- Mirrors the body of `for (successor, move_cost) in successors` (lines
88-114): relaxation of one successor.  `Vacant` inserts the value at a fresh
index (the current length) and pushes a holder; `Occupied` with a strictly
greater stored cost overwrites the value in place at the same index and
pushes; otherwise nothing changes. -/
def relaxOne {N C : Type} [DecidableEq N] [LinearOrder C] [Add C]
    (heuristic : N → C) (index : Nat) (cost : C)
    (st : AState N C) (sc : N × C) : AState N C :=
  let new_cost := cost + sc.2
  match entry? st.parents sc.1 with
  | none =>
    let h := heuristic sc.1
    let n := st.parents.length
    { toSee := ⟨new_cost + h, new_cost, n⟩ :: st.toSee,
      parents := st.parents ++ [(sc.1, index, new_cost)] }
  | some (i, _, c) =>
    if c > new_cost then
      let h := heuristic sc.1
      { toSee := ⟨new_cost + h, new_cost, i⟩ :: st.toSee,
        parents := st.parents.set i (sc.1, index, new_cost) }
    else st

/-- Model of the lazily unfolded path iterator (lines 71-76): starting from
the terminal index, yield the node stored at the current index and advance to
its parent index; stop when the index is out of range.  The lazy iterator is
truncated after `fuel` steps. -/
def pathUnfold {N C : Type} (ps : Store N C) : Nat → Nat → List N
  | 0, _ => []
  | fuel + 1, i =>
    match ps[i]? with
    | none => []
    | some e => e.1 :: pathUnfold ps fuel e.2.1

/-- Outcome of one iteration of the `while let` loop. -/
inductive StepRes (N C : Type) where
  | found (path : List N) (total : C)
  | exhausted
  | panicked
  | next (st : AState N C)
deriving Repr, DecidableEq

/-- One iteration of the `while let Some(SmallestCostHolder { .. }) = to_see.pop()`
loop (lines 67-114): pop the best holder, resolve its index in the frontier
store (`panicked` models the `.unwrap()`), test the success predicate, then
the staleness check `cost > c`, else expand the successors. -/
def astarStep {N C : Type} [DecidableEq N] [LinearOrder C] [Add C]
    (succs : Option N → N → List (N × C)) (heuristic : N → C) (success : N → Bool)
    (st : AState N C) : StepRes N C :=
  match popMax st.toSee with
  | none => StepRes.exhausted
  | some (hd, rest) =>
    match st.parents[hd.index]? with
    | none => StepRes.panicked
    | some e =>
      if success e.1 then
        StepRes.found (pathUnfold st.parents st.parents.length hd.index) hd.cost
      else if hd.cost > e.2.2 then
        StepRes.next { st with toSee := rest }
      else
        let optional_parent := (st.parents[e.2.1]?).map fun x => x.1
        StepRes.next ((succs optional_parent e.1).foldl
          (relaxOne heuristic hd.index hd.cost) { st with toSee := rest })

/-- Outcome of a whole run. -/
inductive RunRes (N C : Type) where
  | found (path : List N) (total : C)
  | exhausted
  | panicked
  | outOfFuel
deriving Repr, DecidableEq

/-- The `while let` loop, driven by fuel. -/
def astarLoop {N C : Type} [DecidableEq N] [LinearOrder C] [Add C]
    (succs : Option N → N → List (N × C)) (heuristic : N → C) (success : N → Bool) :
    Nat → AState N C → RunRes N C
  | 0, _ => RunRes.outOfFuel
  | fuel + 1, st =>
    match astarStep succs heuristic success st with
    | StepRes.found p c => RunRes.found p c
    | StepRes.exhausted => RunRes.exhausted
    | StepRes.panicked => RunRes.panicked
    | StepRes.next st' => astarLoop succs heuristic success fuel st'

/-- Mirrors `pub fn astar_jps` (lines 45-117): push the initial holder
`(zero, zero, 0)`, insert the start node with the sentinel parent and zero
cost, and run the loop. -/
def astar_jps {N C : Type} [DecidableEq N] [LinearOrder C] [Zero C] [Add C]
    (fuel : Nat) (start : N)
    (succs : Option N → N → List (N × C)) (heuristic : N → C) (success : N → Bool) :
    RunRes N C :=
  astarLoop succs heuristic success fuel
    { toSee := [⟨0, 0, 0⟩], parents := [(start, USIZE_MAX, 0)] }

/-! ### Graph-level notions used to state the claims -/

variable {N C : Type}

/-- Paths in the graph induced by a parent-independent successor function
`succsOf`: `ReachFrom succsOf n m c` holds when there is a walk from `n` to
`m` whose move costs sum to `c`. -/
inductive ReachFrom [Zero C] [Add C] (succsOf : N → List (N × C)) : N → N → C → Prop where
  | refl (n : N) : ReachFrom succsOf n n 0
  | tail {n y : N} {g : C} {sc : N × C} :
      ReachFrom succsOf n y g → sc ∈ succsOf y → ReachFrom succsOf n sc.1 (g + sc.2)

/-- Nodes reachable from `start` through the (possibly parent-dependent)
successor generator, closing over every possible optional-parent argument. -/
inductive Reachable (succs : Option N → N → List (N × C)) (start : N) : N → Prop where
  | base : Reachable succs start start
  | step {n : N} {sc : N × C} {op : Option N} :
      Reachable succs start n → sc ∈ succs op n → Reachable succs start sc.1

/-- Move costs produced by a successor function are non-negative. -/
def NonnegCosts [Zero C] [LE C] (succsOf : N → List (N × C)) : Prop :=
  ∀ n, ∀ sc ∈ succsOf n, (0 : C) ≤ sc.2

/-- The heuristic never takes negative values. -/
def NonnegHeuristic [Zero C] [LE C] (heuristic : N → C) : Prop :=
  ∀ n, (0 : C) ≤ heuristic n

/-- Admissibility: the heuristic never overestimates the true remaining cost
to any node satisfying the success predicate. -/
def Admissible [Zero C] [Add C] [LE C] (succsOf : N → List (N × C))
    (success : N → Bool) (heuristic : N → C) : Prop :=
  ∀ n m c, success m = true → ReachFrom succsOf n m c → heuristic n ≤ c

/-- Consistency: the heuristic satisfies the triangle inequality across every
edge. -/
def Consistent [Add C] [LE C] (succsOf : N → List (N × C)) (heuristic : N → C) : Prop :=
  ∀ n, ∀ sc ∈ succsOf n, heuristic n ≤ sc.2 + heuristic sc.1

/-- The parent chain of the frontier store, starting at index `i`: the list
of indices visited by repeatedly following parent pointers until an
out-of-range parent (the sentinel) is reached. -/
inductive Chain (ps : Store N C) : Nat → List Nat → Prop where
  | last {i : Nat} {e : N × Nat × C} :
      ps[i]? = some e → ps[e.2.1]? = none → Chain ps i [i]
  | cons {i : Nat} {e : N × Nat × C} {is : List Nat} :
      ps[i]? = some e → Chain ps e.2.1 is → Chain ps i (i :: is)

/-- One `next` step of the search loop, as a relation on states. -/
def StepsTo [DecidableEq N] [LinearOrder C] [Add C]
    (succs : Option N → N → List (N × C)) (heuristic : N → C) (success : N → Bool)
    (st st' : AState N C) : Prop :=
  astarStep succs heuristic success st = StepRes.next st'

/-- Iterate `next` steps of the loop; `none` when the loop stopped (by
success, exhaustion or panic) before `k` steps. -/
def iterCont [DecidableEq N] [LinearOrder C] [Add C]
    (succs : Option N → N → List (N × C)) (heuristic : N → C) (success : N → Bool) :
    Nat → AState N C → Option (AState N C)
  | 0, st => some st
  | k + 1, st =>
    match astarStep succs heuristic success st with
    | StepRes.next st' => iterCont succs heuristic success k st'
    | _ => none

/-- Every queued holder's index is a valid index of the frontier store. -/
def IdxOk (st : AState N C) : Prop :=
  ∀ hd ∈ st.toSee, hd.index < st.parents.length

/-- The store `ps'` extends `ps`: it is at least as long, every index valid
in `ps` still holds the same node, and the stored cost at such an index has
not increased. -/
def StoreExt [LE C] (ps ps' : Store N C) : Prop :=
  ps.length ≤ ps'.length ∧
  ∀ (j : Nat) (e : N × Nat × C), ps[j]? = some e →
    ∃ (p' : Nat) (c' : C), ps'[j]? = some (e.1, p', c') ∧ c' ≤ e.2.2

/-- Some queued holder points at index `i` with cost at most `b`. -/
def openW [LE C] (st : AState N C) (i : Nat) (b : C) : Prop :=
  ∃ hd ∈ st.toSee, hd.index = i ∧ hd.cost ≤ b

/-- The store holds `k` at some index with stored cost at most `b`. -/
def doneUB [DecidableEq N] [LE C] (ps : Store N C) (k : N) (b : C) : Prop :=
  ∃ j p c, entry? ps k = some (j, p, c) ∧ c ≤ b

/-- The master invariant of the search loop for the optimality proof, over a
parent-independent successor function `succsOf`. -/
structure Inv [DecidableEq N] [LinearOrder C] [Zero C] [Add C]
    (succsOf : N → List (N × C)) (heuristic : N → C) (success : N → Bool)
    (start : N) (st : AState N C) : Prop where
  idxOk : IdxOk st
  queueGe : ∀ hd ∈ st.toSee, ∃ e, st.parents[hd.index]? = some e ∧ e.2.2 ≤ hd.cost
  estOk : ∀ hd ∈ st.toSee,
    (∃ e, st.parents[hd.index]? = some e ∧
      hd.estimated_cost = hd.cost + heuristic e.1) ∨
    (hd.estimated_cost = 0 ∧ hd.cost = 0)
  reachQ : ∀ hd ∈ st.toSee, ∃ e, st.parents[hd.index]? = some e ∧
    ReachFrom succsOf start e.1 hd.cost
  openOrDone : ∀ i e, st.parents[i]? = some e →
    openW st i e.2.2 ∨ ∀ sc ∈ succsOf e.1, doneUB st.parents sc.1 (e.2.2 + sc.2)
  predOpen : ∀ i e, st.parents[i]? = some e → success e.1 = true → openW st i e.2.2
  startLow : ∃ (i p : Nat) (c : C), st.parents[i]? = some (start, p, c) ∧ c ≤ 0

/-- The loop invariant relative to a popped entry `i₀ ↦ (n₀, p₀, c₀)` being
expanded: all fields of `Inv` except that index `i₀`'s open-or-done
obligation is dropped (the expansion is re-establishing it) and the start
entry's bound is not tracked. -/
def MidInv [DecidableEq N] [LinearOrder C] [Zero C] [Add C]
    (succsOf : N → List (N × C)) (heuristic : N → C) (success : N → Bool)
    (start : N) (i₀ : Nat) (n₀ : N) (p₀ : Nat) (c₀ : C) (st : AState N C) : Prop :=
  st.parents[i₀]? = some (n₀, p₀, c₀) ∧
  IdxOk st ∧
  (∀ hd ∈ st.toSee, ∃ e, st.parents[hd.index]? = some e ∧ e.2.2 ≤ hd.cost) ∧
  (∀ hd ∈ st.toSee,
    (∃ e, st.parents[hd.index]? = some e ∧
      hd.estimated_cost = hd.cost + heuristic e.1) ∨
    (hd.estimated_cost = 0 ∧ hd.cost = 0)) ∧
  (∀ hd ∈ st.toSee, ∃ e, st.parents[hd.index]? = some e ∧
    ReachFrom succsOf start e.1 hd.cost) ∧
  (∀ (i : Nat) (e : N × Nat × C), st.parents[i]? = some e → i ≠ i₀ →
    openW st i e.2.2 ∨
    ∀ sc' ∈ succsOf e.1, doneUB st.parents sc'.1 (e.2.2 + sc'.2)) ∧
  (∀ (i : Nat) (e : N × Nat × C), st.parents[i]? = some e →
    success e.1 = true → openW st i e.2.2)

/-! ### Concrete instances used by witnesses and counterexamples -/

/-- Successor function of the two-node witness graph: one unit edge from
node `0` to node `1`. -/
def wSuccs (n : Nat) : List (Nat × Int) := if n = 0 then [(1, 1)] else []

/-- Successor function of the counterexample graph: a negative edge from
node `2` back to node `1` lets a later relaxation rewrite node `1`'s parent
to its own descendant `2`, producing a cyclic parent chain. -/
def cSuccs (n : Nat) : List (Nat × Int) :=
  if n = 0 then [(1, 10)]
  else if n = 1 then [(2, 1), (3, 2)]
  else if n = 2 then [(1, -5)]
  else []

/-- Heuristic of the counterexample graph: large on node `1` so that the
goal entry pops right after the cyclic parent chain has been created. -/
def cHeur (n : Nat) : Int := if n = 1 then 100 else 0

/-! ### Ordering lemmas for `SmallestCostHolder` -/

theorem cmpHolder_eq_lt_iff [LinearOrder C] {a b : SmallestCostHolder C} :
    cmpHolder a b = Ordering.lt ↔
      b.estimated_cost < a.estimated_cost ∨
        (b.estimated_cost = a.estimated_cost ∧ a.cost < b.cost) := by
  unfold cmpHolder
  cases h : compare b.estimated_cost a.estimated_cost with
  | lt =>
    have hl := compare_lt_iff_lt.mp h
    exact iff_of_true rfl (Or.inl hl)
  | eq =>
    have he := compare_eq_iff_eq.mp h
    rw [compare_lt_iff_lt]
    constructor
    · intro hc; exact Or.inr ⟨he, hc⟩
    · rintro (hlt | ⟨_, hc⟩)
      · exact absurd hlt (by rw [he]; exact lt_irrefl _)
      · exact hc
  | gt =>
    have hg := compare_gt_iff_gt.mp h
    constructor
    · intro hc; exact absurd hc (by simp)
    · rintro (hlt | ⟨he, _⟩)
      · exact absurd hg (not_lt.mpr hlt.le)
      · exact absurd he (ne_of_gt hg)

theorem cmpHolder_eq_gt_iff [LinearOrder C] {a b : SmallestCostHolder C} :
    cmpHolder a b = Ordering.gt ↔
      a.estimated_cost < b.estimated_cost ∨
        (b.estimated_cost = a.estimated_cost ∧ b.cost < a.cost) := by
  unfold cmpHolder
  cases h : compare b.estimated_cost a.estimated_cost with
  | lt =>
    have hl := compare_lt_iff_lt.mp h
    constructor
    · intro hc; exact absurd hc (by simp)
    · rintro (hlt | ⟨he, _⟩)
      · exact absurd hl (not_lt.mpr hlt.le)
      · exact absurd he.symm (ne_of_gt hl)
  | eq =>
    have he := compare_eq_iff_eq.mp h
    rw [compare_gt_iff_gt]
    constructor
    · intro hc; exact Or.inr ⟨he, hc⟩
    · rintro (hlt | ⟨_, hc⟩)
      · exact absurd hlt (by rw [he]; exact lt_irrefl _)
      · exact hc
  | gt =>
    have hg := compare_gt_iff_gt.mp h
    exact iff_of_true rfl (Or.inl hg)

theorem cmpHolder_ne_lt_iff [LinearOrder C] {a b : SmallestCostHolder C} :
    cmpHolder a b ≠ Ordering.lt ↔
      a.estimated_cost ≤ b.estimated_cost ∧
        (b.estimated_cost = a.estimated_cost → b.cost ≤ a.cost) := by
  rw [Ne, cmpHolder_eq_lt_iff, not_or]
  constructor
  · rintro ⟨h1, h2⟩
    exact ⟨not_lt.mp h1, fun he => not_lt.mp fun hc => h2 ⟨he, hc⟩⟩
  · rintro ⟨h1, h2⟩
    refine ⟨not_lt.mpr h1, ?_⟩
    rintro ⟨he, hc⟩
    exact absurd hc (not_lt.mpr (h2 he))

theorem cmpHolder_ne_lt_of_lt [LinearOrder C] {a b : SmallestCostHolder C}
    (h : cmpHolder a b = Ordering.lt) : cmpHolder b a ≠ Ordering.lt := by
  rw [cmpHolder_eq_lt_iff] at h
  rw [cmpHolder_ne_lt_iff]
  rcases h with hlt | ⟨he, hc⟩
  · exact ⟨hlt.le, fun he2 => absurd hlt (by rw [he2]; exact lt_irrefl _)⟩
  · exact ⟨he.le, fun _ => hc.le⟩

theorem cmpHolder_ne_lt_trans [LinearOrder C] {a b c : SmallestCostHolder C}
    (hab : cmpHolder a b ≠ Ordering.lt) (hbc : cmpHolder b c ≠ Ordering.lt) :
    cmpHolder a c ≠ Ordering.lt := by
  rw [cmpHolder_ne_lt_iff] at hab hbc ⊢
  refine ⟨hab.1.trans hbc.1, fun he => ?_⟩
  have h1 : b.estimated_cost = a.estimated_cost :=
    le_antisymm (he ▸ hbc.1) hab.1
  have h2 : c.estimated_cost = b.estimated_cost := by rw [h1, he]
  exact (hbc.2 h2).trans (hab.2 h1)

/-! ### `popMax` lemmas: the model of `BinaryHeap::pop` -/

theorem popMax_eq_none_iff [LinearOrder C] {l : List (SmallestCostHolder C)} :
    popMax l = none ↔ l = [] := by
  cases l with
  | nil => simp [popMax]
  | cons a t =>
    rw [popMax]
    cases h : popMax t with
    | none => simp
    | some p =>
      obtain ⟨m, rest⟩ := p
      by_cases hc : cmpHolder a m = Ordering.lt <;> simp [hc]

theorem popMax_some_spec [LinearOrder C] :
    ∀ {l : List (SmallestCostHolder C)} {m : SmallestCostHolder C}
      {rest : List (SmallestCostHolder C)}, popMax l = some (m, rest) →
      m ∈ l ∧ (∀ x ∈ rest, x ∈ l) ∧ (∀ x ∈ l, x = m ∨ x ∈ rest) ∧
        (∀ x ∈ rest, cmpHolder m x ≠ Ordering.lt) := by
  intro l
  induction l with
  | nil => intro m rest h; simp [popMax] at h
  | cons a t ih =>
    intro m rest h
    rw [popMax] at h
    split at h
    · rename_i ht
      simp only [Option.some.injEq, Prod.mk.injEq] at h
      obtain ⟨rfl, rfl⟩ := h
      have htnil : t = [] := popMax_eq_none_iff.mp ht
      subst htnil
      refine ⟨List.mem_cons_self _ _, by simp, ?_, by simp⟩
      intro x hx
      rcases List.mem_cons.mp hx with rfl | hx
      · exact Or.inl rfl
      · simp at hx
    · rename_i m' rest' ht
      obtain ⟨hm'1, hr1, hc1, hx1⟩ := ih ht
      split at h
      · rename_i hcmp
        simp only [Option.some.injEq, Prod.mk.injEq] at h
        obtain ⟨rfl, rfl⟩ := h
        refine ⟨List.mem_cons_of_mem _ hm'1, ?_, ?_, ?_⟩
        · intro x hx
          rcases List.mem_cons.mp hx with rfl | hx
          · exact List.mem_cons_self _ _
          · exact List.mem_cons_of_mem _ (hr1 x hx)
        · intro x hx
          rcases List.mem_cons.mp hx with rfl | hx
          · exact Or.inr (List.mem_cons_self _ _)
          · rcases hc1 x hx with rfl | hx'
            · exact Or.inl rfl
            · exact Or.inr (List.mem_cons_of_mem _ hx')
        · intro x hx
          rcases List.mem_cons.mp hx with rfl | hx
          · exact cmpHolder_ne_lt_of_lt hcmp
          · exact hx1 x hx
      · rename_i hcmp
        simp only [Option.some.injEq, Prod.mk.injEq] at h
        obtain ⟨rfl, rfl⟩ := h
        refine ⟨List.mem_cons_self _ _, fun x hx => List.mem_cons_of_mem _ hx, ?_, ?_⟩
        · intro x hx
          rcases List.mem_cons.mp hx with rfl | hx
          · exact Or.inl rfl
          · exact Or.inr hx
        · intro x hx
          rcases hc1 x hx with rfl | hx'
          · exact hcmp
          · exact cmpHolder_ne_lt_trans hcmp (hx1 x hx')

/-! ### `entry?` lemmas: the model of the IndexMap key lookup -/

theorem getElem?_some_lt {α : Type} {l : List α} {i : Nat} {a : α}
    (h : l[i]? = some a) : i < l.length := by
  by_contra hge
  rw [List.getElem?_eq_none (le_of_not_lt hge)] at h
  exact absurd h (by simp)

theorem entry?_some_getElem [DecidableEq N] :
    ∀ {ps : Store N C} {k : N} {i p : Nat} {c : C},
      entry? ps k = some (i, p, c) → ps[i]? = some (k, p, c) := by
  intro ps
  induction ps with
  | nil => intro k i p c h; simp [entry?] at h
  | cons e t ih =>
    obtain ⟨k', p', c'⟩ := e
    intro k i p c h
    rw [entry?] at h
    split at h
    · rename_i hk
      simp only [Option.some.injEq, Prod.mk.injEq] at h
      obtain ⟨rfl, rfl, rfl⟩ := h
      simp only at hk
      rw [List.getElem?_cons_zero, hk]
    · rename_i hk
      rw [Option.map_eq_some'] at h
      obtain ⟨⟨i', p'', c''⟩, hr, hf⟩ := h
      simp only [Prod.mk.injEq] at hf
      obtain ⟨rfl, rfl, rfl⟩ := hf
      rw [List.getElem?_cons_succ]
      exact ih hr

theorem entry?_eq_none_iff [DecidableEq N] {ps : Store N C} {k : N} :
    entry? ps k = none ↔ ∀ e ∈ ps, e.1 ≠ k := by
  induction ps with
  | nil => simp [entry?]
  | cons e t ih =>
    rw [entry?]
    split
    · rename_i hk
      simp only [reduceCtorEq, false_iff, not_forall]
      exact ⟨e, List.mem_cons_self _ _, by simpa using hk⟩
    · rename_i hk
      rw [Option.map_eq_none', ih]
      constructor
      · intro h x hx
        rcases List.mem_cons.mp hx with rfl | hx
        · exact hk
        · exact h x hx
      · intro h x hx
        exact h x (List.mem_cons_of_mem _ hx)

theorem entry?_append_of_some [DecidableEq N] :
    ∀ {ps : Store N C} {k : N} {r : Nat × Nat × C} (x : N × Nat × C),
      entry? ps k = some r → entry? (ps ++ [x]) k = some r := by
  intro ps
  induction ps with
  | nil => intro k r x h; simp [entry?] at h
  | cons e t ih =>
    intro k r x h
    rw [entry?] at h
    rw [List.cons_append, entry?]
    split at h
    · rename_i hk
      rw [if_pos hk]
      exact h
    · rename_i hk
      rw [if_neg hk]
      rw [Option.map_eq_some'] at h
      obtain ⟨r', hr, hf⟩ := h
      rw [ih x hr, Option.map_some', hf]

theorem entry?_append_fresh [DecidableEq N] :
    ∀ {ps : Store N C} {k : N} (v : Nat × C),
      entry? ps k = none → entry? (ps ++ [(k, v)]) k = some (ps.length, v) := by
  intro ps
  induction ps with
  | nil => intro k v h; simp [entry?]
  | cons e t ih =>
    intro k v h
    rw [entry?] at h
    rw [List.cons_append, entry?]
    split at h
    · exact absurd h (by simp)
    · rename_i hk
      rw [if_neg hk]
      rw [Option.map_eq_none'] at h
      rw [ih v h, Option.map_some']
      simp [List.length_cons]

theorem entry?_set_same_key [DecidableEq N] :
    ∀ {ps : Store N C} {i : Nat} {k : N} {v v' : Nat × C},
      ps[i]? = some (k, v) → ∀ k',
      entry? (ps.set i (k, v')) k' =
        (entry? ps k').map fun r => if r.1 = i then (i, v') else r := by
  intro ps
  induction ps with
  | nil => intro i k v v' h k'; simp at h
  | cons e t ih =>
    intro i k v v' h k'
    cases i with
    | zero =>
      rw [List.getElem?_cons_zero] at h
      simp only [Option.some.injEq] at h
      subst h
      rw [List.set_cons_zero, entry?, entry?]
      by_cases hk : k = k'
      · simp only [if_pos hk]
        simp
      · simp only [if_neg hk, Option.map_map]
        apply Option.map_congr
        intro r _
        simp [Nat.succ_ne_zero]
    | succ j =>
      rw [List.getElem?_cons_succ] at h
      rw [List.set_cons_succ, entry?, entry?]
      by_cases hk : e.1 = k'
      · simp only [if_pos hk]
        simp [Nat.succ_ne_zero]
      · simp only [if_neg hk, ih h k', Option.map_map]
        apply Option.map_congr
        intro r _
        by_cases hr : r.1 = j <;> simp [hr]

/-! ### Store-extension and index-validity infrastructure -/

theorem storeExt_refl [LinearOrder C] (ps : Store N C) : StoreExt ps ps :=
  ⟨le_refl _, fun j e hj => ⟨e.2.1, e.2.2, by rw [hj], le_refl _⟩⟩

theorem storeExt_trans [LinearOrder C] {ps ps' ps'' : Store N C}
    (h1 : StoreExt ps ps') (h2 : StoreExt ps' ps'') : StoreExt ps ps'' := by
  refine ⟨h1.1.trans h2.1, fun j e hj => ?_⟩
  obtain ⟨p', c', hj', hle'⟩ := h1.2 j e hj
  obtain ⟨p'', c'', hj'', hle''⟩ := h2.2 j (e.1, p', c') hj'
  exact ⟨p'', c'', hj'', hle''.trans hle'⟩

theorem relaxOne_storeExt [DecidableEq N] [LinearOrder C] [Add C]
    (heuristic : N → C) (index : Nat) (cost : C) (st : AState N C) (sc : N × C) :
    StoreExt st.parents (relaxOne heuristic index cost st sc).parents := by
  rcases hent : entry? st.parents sc.1 with _ | ⟨i, p, c⟩
  · simp only [relaxOne, hent]
    refine ⟨by simp, fun j e hj => ?_⟩
    exact ⟨e.2.1, e.2.2,
      by rw [List.getElem?_append_left (getElem?_some_lt hj), hj], le_refl _⟩
  · by_cases hgt : cost + sc.2 < c
    · have hi := entry?_some_getElem hent
      have hlt := getElem?_some_lt hi
      simp only [relaxOne, hent, if_pos hgt]
      refine ⟨by simp, fun j e hj => ?_⟩
      by_cases hji : j = i
      · subst hji
        rw [hi] at hj
        injection hj with hj
        subst hj
        exact ⟨index, cost + sc.2, List.getElem?_set_self hlt, le_of_lt hgt⟩
      · exact ⟨e.2.1, e.2.2,
          by rw [List.getElem?_set_ne (fun he => hji he.symm), hj], le_refl _⟩
    · simp only [relaxOne, hent, if_neg hgt]
      exact storeExt_refl _

theorem relaxOne_toSee_mem [DecidableEq N] [LinearOrder C] [Add C]
    (heuristic : N → C) (index : Nat) (cost : C) (st : AState N C) (sc : N × C)
    {x : SmallestCostHolder C} (hx : x ∈ st.toSee) :
    x ∈ (relaxOne heuristic index cost st sc).toSee := by
  rcases hent : entry? st.parents sc.1 with _ | ⟨i, p, c⟩
  · simp only [relaxOne, hent]
    exact List.mem_cons_of_mem _ hx
  · by_cases hgt : cost + sc.2 < c
    · simp only [relaxOne, hent, if_pos hgt]
      exact List.mem_cons_of_mem _ hx
    · simp only [relaxOne, hent, if_neg hgt]
      exact hx

theorem foldl_relax_storeExt [DecidableEq N] [LinearOrder C] [Add C]
    (heuristic : N → C) (index : Nat) (cost : C) :
    ∀ (l : List (N × C)) (st : AState N C),
      StoreExt st.parents ((l.foldl (relaxOne heuristic index cost) st).parents)
  | [], st => storeExt_refl _
  | sc :: l, st =>
    storeExt_trans (relaxOne_storeExt heuristic index cost st sc)
      (foldl_relax_storeExt heuristic index cost l (relaxOne heuristic index cost st sc))

theorem foldl_relax_toSee_mem [DecidableEq N] [LinearOrder C] [Add C]
    (heuristic : N → C) (index : Nat) (cost : C) :
    ∀ (l : List (N × C)) (st : AState N C) {x : SmallestCostHolder C},
      x ∈ st.toSee → x ∈ ((l.foldl (relaxOne heuristic index cost) st).toSee)
  | [], st, _, hx => hx
  | sc :: l, st, x, hx =>
    foldl_relax_toSee_mem heuristic index cost l (relaxOne heuristic index cost st sc)
      (relaxOne_toSee_mem heuristic index cost st sc hx)

/-! ### Inversion lemmas for one loop iteration -/

theorem astarStep_next_inv [DecidableEq N] [LinearOrder C] [Add C]
    {succs : Option N → N → List (N × C)} {heuristic : N → C} {success : N → Bool}
    {st st' : AState N C}
    (h : astarStep succs heuristic success st = StepRes.next st') :
    ∃ hd rest e, popMax st.toSee = some (hd, rest) ∧
      st.parents[hd.index]? = some e ∧ success e.1 = false ∧
      ((e.2.2 < hd.cost ∧ st' = { st with toSee := rest }) ∨
        (¬ e.2.2 < hd.cost ∧
          st' = (succs ((st.parents[e.2.1]?).map fun x => x.1) e.1).foldl
            (relaxOne heuristic hd.index hd.cost) { st with toSee := rest })) := by
  unfold astarStep at h
  split at h
  · exact absurd h (by simp)
  · rename_i hd rest hpop
    split at h
    · exact absurd h (by simp)
    · rename_i e hget
      split at h
      · exact absurd h (by simp)
      · rename_i hsucc
        split at h
        · rename_i hstale
          injection h with h
          exact ⟨hd, rest, e, hpop, hget, Bool.not_eq_true _ ▸ hsucc, Or.inl ⟨hstale, h.symm⟩⟩
        · rename_i hstale
          injection h with h
          exact ⟨hd, rest, e, hpop, hget, Bool.not_eq_true _ ▸ hsucc,
            Or.inr ⟨hstale, h.symm⟩⟩

theorem astarStep_panicked_inv [DecidableEq N] [LinearOrder C] [Add C]
    {succs : Option N → N → List (N × C)} {heuristic : N → C} {success : N → Bool}
    {st : AState N C}
    (h : astarStep succs heuristic success st = StepRes.panicked) :
    ∃ hd rest, popMax st.toSee = some (hd, rest) ∧ st.parents[hd.index]? = none := by
  unfold astarStep at h
  split at h
  · exact absurd h (by simp)
  · rename_i hd rest hpop
    split at h
    · rename_i hget
      exact ⟨hd, rest, hpop, hget⟩
    · rename_i e hget
      split at h
      · exact absurd h (by simp)
      · split at h <;> exact absurd h (by simp)

theorem astarStep_found_inv [DecidableEq N] [LinearOrder C] [Add C]
    {succs : Option N → N → List (N × C)} {heuristic : N → C} {success : N → Bool}
    {st : AState N C} {path : List N} {total : C}
    (h : astarStep succs heuristic success st = StepRes.found path total) :
    ∃ hd rest e, popMax st.toSee = some (hd, rest) ∧
      st.parents[hd.index]? = some e ∧ success e.1 = true ∧
      path = pathUnfold st.parents st.parents.length hd.index ∧ total = hd.cost := by
  unfold astarStep at h
  split at h
  · exact absurd h (by simp)
  · rename_i hd rest hpop
    split at h
    · exact absurd h (by simp)
    · rename_i e hget
      split at h
      · rename_i hsucc
        injection h with h1 h2
        exact ⟨hd, rest, e, hpop, hget, hsucc, h1.symm, h2.symm⟩
      · split at h <;> exact absurd h (by simp)

theorem astarStep_exhausted_iff [DecidableEq N] [LinearOrder C] [Add C]
    {succs : Option N → N → List (N × C)} {heuristic : N → C} {success : N → Bool}
    {st : AState N C} :
    astarStep succs heuristic success st = StepRes.exhausted ↔ st.toSee = [] := by
  constructor
  · intro h
    unfold astarStep at h
    split at h
    · rename_i hpop
      exact popMax_eq_none_iff.mp hpop
    · split at h
      · exact absurd h (by simp)
      · split at h
        · exact absurd h (by simp)
        · split at h <;> exact absurd h (by simp)
  · intro h
    unfold astarStep
    rw [show popMax st.toSee = none from popMax_eq_none_iff.mpr h]

/-! ### Index validity is preserved by the loop -/

theorem relaxOne_idxOk [DecidableEq N] [LinearOrder C] [Add C]
    (heuristic : N → C) (index : Nat) (cost : C) (st : AState N C) (sc : N × C)
    (h : IdxOk st) : IdxOk (relaxOne heuristic index cost st sc) := by
  intro hd hmem
  rcases hent : entry? st.parents sc.1 with _ | ⟨i, p, c⟩
  · simp only [relaxOne, hent] at hmem ⊢
    rcases List.mem_cons.mp hmem with rfl | hmem
    · simp
    · simp only [List.length_append, List.length_singleton]
      exact lt_of_lt_of_le (h hd hmem) (Nat.le_add_right _ _)
  · by_cases hgt : cost + sc.2 < c
    · have hlt := getElem?_some_lt (entry?_some_getElem hent)
      simp only [relaxOne, hent, if_pos hgt] at hmem ⊢
      rcases List.mem_cons.mp hmem with rfl | hmem
      · simpa using hlt
      · simpa using h hd hmem
    · simp only [relaxOne, hent, if_neg hgt] at hmem ⊢
      exact h hd hmem

theorem foldl_relax_idxOk [DecidableEq N] [LinearOrder C] [Add C]
    (heuristic : N → C) (index : Nat) (cost : C) :
    ∀ (l : List (N × C)) (st : AState N C), IdxOk st →
      IdxOk (l.foldl (relaxOne heuristic index cost) st)
  | [], st, h => h
  | sc :: l, st, h =>
    foldl_relax_idxOk heuristic index cost l (relaxOne heuristic index cost st sc)
      (relaxOne_idxOk heuristic index cost st sc h)

theorem stepsTo_idxOk [DecidableEq N] [LinearOrder C] [Add C]
    {succs : Option N → N → List (N × C)} {heuristic : N → C} {success : N → Bool}
    {st st' : AState N C}
    (hIdx : IdxOk st) (h : StepsTo succs heuristic success st st') : IdxOk st' := by
  obtain ⟨hd, rest, e, hpop, hget, hs, hcase⟩ := astarStep_next_inv h
  have hrest : IdxOk { st with toSee := rest } := fun x hx =>
    hIdx x ((popMax_some_spec hpop).2.1 x hx)
  rcases hcase with ⟨_, rfl⟩ | ⟨_, rfl⟩
  · exact hrest
  · exact foldl_relax_idxOk heuristic hd.index hd.cost _ _ hrest

theorem stepsTo_storeExt [DecidableEq N] [LinearOrder C] [Add C]
    {succs : Option N → N → List (N × C)} {heuristic : N → C} {success : N → Bool}
    {st st' : AState N C}
    (h : StepsTo succs heuristic success st st') : StoreExt st.parents st'.parents := by
  obtain ⟨hd, rest, e, hpop, hget, hs, hcase⟩ := astarStep_next_inv h
  rcases hcase with ⟨_, rfl⟩ | ⟨_, rfl⟩
  · exact storeExt_refl _
  · exact foldl_relax_storeExt heuristic hd.index hd.cost
      (succs ((st.parents[e.2.1]?).map fun x => x.1) e.1) { st with toSee := rest }

theorem reflTrans_storeExt [DecidableEq N] [LinearOrder C] [Add C]
    {succs : Option N → N → List (N × C)} {heuristic : N → C} {success : N → Bool}
    {st st' : AState N C}
    (h : Relation.ReflTransGen (StepsTo succs heuristic success) st st') :
    StoreExt st.parents st'.parents := by
  induction h with
  | refl => exact storeExt_refl _
  | tail hsteps hstep ih => exact storeExt_trans ih (stepsTo_storeExt hstep)

theorem astarLoop_ne_panicked [DecidableEq N] [LinearOrder C] [Add C]
    (succs : Option N → N → List (N × C)) (heuristic : N → C) (success : N → Bool) :
    ∀ (fuel : Nat) (st : AState N C), IdxOk st →
      astarLoop succs heuristic success fuel st ≠ RunRes.panicked := by
  intro fuel
  induction fuel with
  | zero => intro st _; simp [astarLoop]
  | succ f ih =>
    intro st hIdx
    rw [astarLoop]
    cases hstep : astarStep succs heuristic success st with
    | found p c => simp
    | exhausted => simp
    | panicked =>
      obtain ⟨hd, rest, hpop, hget⟩ := astarStep_panicked_inv hstep
      have hlt := hIdx hd (popMax_some_spec hpop).1
      have hge := List.getElem?_eq_none_iff.mp hget
      omega
    | next st' => exact ih st' (stepsTo_idxOk hIdx hstep)

/-! ### Claim C2: priority ordering -/

/-- Claim C2: for every pair of priority entries, the comparison used by the
priority queue makes the entry with the smaller `estimated_cost` pop first
(`Ordering.gt` means "pops before" for the max-heap); on equal
`estimated_cost` the entry with the larger accumulated `cost` pops first;
equality is structural on `(estimated_cost, cost)` and ignores `index`;
and a popped entry is never smaller than a remaining one. -/
theorem claim2_priority_ordering [LinearOrder C] (a b : SmallestCostHolder C) :
    (cmpHolder a b = Ordering.gt ↔
      a.estimated_cost < b.estimated_cost ∨
        (a.estimated_cost = b.estimated_cost ∧ b.cost < a.cost)) ∧
    (holderBEq a b = true ↔ a.estimated_cost = b.estimated_cost ∧ a.cost = b.cost) ∧
    (∀ i j : Nat,
      holderBEq ⟨a.estimated_cost, a.cost, i⟩ ⟨b.estimated_cost, b.cost, j⟩ =
        holderBEq a b) ∧
    (∀ (l : List (SmallestCostHolder C)) m rest, popMax l = some (m, rest) →
      ∀ x ∈ rest, cmpHolder m x ≠ Ordering.lt) := by
  refine ⟨?_, ?_, ?_, ?_⟩
  · rw [cmpHolder_eq_gt_iff]
    constructor
    · rintro (h | ⟨he, hc⟩)
      · exact Or.inl h
      · exact Or.inr ⟨he.symm, hc⟩
    · rintro (h | ⟨he, hc⟩)
      · exact Or.inl h
      · exact Or.inr ⟨he.symm, hc⟩
  · unfold holderBEq
    rw [Bool.and_eq_true, decide_eq_true_eq, decide_eq_true_eq]
  · intro i j; rfl
  · intro l m rest h x hx
    exact (popMax_some_spec h).2.2.2 x hx

theorem claim2_priority_ordering_witness :
    cmpHolder (⟨1, 5, 0⟩ : SmallestCostHolder Int) ⟨1, 3, 7⟩ = Ordering.gt ∧
    holderBEq (⟨1, 5, 0⟩ : SmallestCostHolder Int) ⟨1, 5, 9⟩ = true ∧
    cmpHolder (⟨1, 5, 0⟩ : SmallestCostHolder Int) ⟨2, 9, 1⟩ ≠ Ordering.lt := by
  refine ⟨?_, ?_, ?_⟩
  · exact (claim2_priority_ordering (⟨1, 5, 0⟩ : SmallestCostHolder Int)
      ⟨1, 3, 7⟩).1.mpr (Or.inr ⟨rfl, by decide⟩)
  · exact (claim2_priority_ordering (⟨1, 5, 0⟩ : SmallestCostHolder Int)
      ⟨1, 5, 9⟩).2.1.mpr ⟨rfl, rfl⟩
  · exact (claim2_priority_ordering (⟨1, 5, 0⟩ : SmallestCostHolder Int) ⟨1, 5, 0⟩).2.2.2
      [⟨2, 9, 1⟩, ⟨1, 5, 0⟩] ⟨1, 5, 0⟩ [⟨2, 9, 1⟩] (by decide) ⟨2, 9, 1⟩ (by decide)

/-! ### Claim C5: relaxation of one successor -/

/-- Claim C5: relaxing one successor either inserts `(current index,
new cost)` at a freshly assigned index (the current store length) and pushes
a matching holder, leaving all existing entries untouched; or, when present
with a strictly greater stored cost, overwrites the value in place at the
same index and pushes; or leaves the whole state unmodified. -/
theorem claim5_relaxation [DecidableEq N] [LinearOrder C] [Add C]
    (heuristic : N → C) (index : Nat) (cost : C) (st : AState N C) (s : N) (mc : C) :
    (entry? st.parents s = none →
      (relaxOne heuristic index cost st (s, mc)).parents.length =
        st.parents.length + 1 ∧
      (relaxOne heuristic index cost st (s, mc)).parents[st.parents.length]? =
        some (s, index, cost + mc) ∧
      (∀ j, j < st.parents.length →
        (relaxOne heuristic index cost st (s, mc)).parents[j]? = st.parents[j]?) ∧
      (relaxOne heuristic index cost st (s, mc)).toSee =
        ⟨cost + mc + heuristic s, cost + mc, st.parents.length⟩ :: st.toSee) ∧
    (∀ i p c, entry? st.parents s = some (i, p, c) → cost + mc < c →
      (relaxOne heuristic index cost st (s, mc)).parents[i]? =
        some (s, index, cost + mc) ∧
      (relaxOne heuristic index cost st (s, mc)).parents.length = st.parents.length ∧
      (∀ j, j ≠ i →
        (relaxOne heuristic index cost st (s, mc)).parents[j]? = st.parents[j]?) ∧
      (relaxOne heuristic index cost st (s, mc)).toSee =
        ⟨cost + mc + heuristic s, cost + mc, i⟩ :: st.toSee) ∧
    (∀ i p c, entry? st.parents s = some (i, p, c) → ¬(cost + mc < c) →
      relaxOne heuristic index cost st (s, mc) = st) := by
  refine ⟨?_, ?_, ?_⟩
  · intro h
    simp only [relaxOne, h]
    refine ⟨by simp, ?_, ?_, by trivial⟩
    · exact List.getElem?_concat_length _ _
    · intro j hj
      exact List.getElem?_append_left hj
  · intro i p c h hgt
    have hi := entry?_some_getElem h
    have hlt := getElem?_some_lt hi
    simp only [relaxOne, h, if_pos hgt]
    refine ⟨?_, by simp, ?_, by trivial⟩
    · exact List.getElem?_set_self hlt
    · intro j hj
      exact List.getElem?_set_ne (fun he => hj he.symm)
  · intro i p c h hng
    simp only [relaxOne, h, if_neg hng]

theorem claim5_relaxation_witness :
    (relaxOne (fun _ => (100 : Int)) 0 2 ⟨[], [(5, USIZE_MAX, 10)]⟩
        ((9 : Nat), (3 : Int))).parents[1]? = some (9, 0, 5) ∧
    (relaxOne (fun _ => (100 : Int)) 0 2 ⟨[], [(5, USIZE_MAX, 10)]⟩
        ((5 : Nat), (3 : Int))).parents[0]? = some (5, 0, 5) ∧
    relaxOne (fun _ => (100 : Int)) 0 2 ⟨[], [(5, USIZE_MAX, 1)]⟩
        ((5 : Nat), (3 : Int)) = ⟨[], [(5, USIZE_MAX, 1)]⟩ := by
  refine ⟨?_, ?_, ?_⟩
  · exact ((claim5_relaxation (fun _ => (100 : Int)) 0 2 ⟨[], [(5, USIZE_MAX, 10)]⟩
      9 3).1 (by decide)).2.1
  · exact ((claim5_relaxation (fun _ => (100 : Int)) 0 2 ⟨[], [(5, USIZE_MAX, 10)]⟩
      5 3).2.1 0 USIZE_MAX 10 (by decide) (by decide)).1
  · exact (claim5_relaxation (fun _ => (100 : Int)) 0 2 ⟨[], [(5, USIZE_MAX, 1)]⟩
      5 3).2.2 0 USIZE_MAX 1 (by decide) (by decide)

/-! ### Claim C3: success is tested before the staleness check -/

/-- Claim C3: when the popped entry's node satisfies the success predicate,
the loop returns immediately with the popped entry's cost as the total cost,
even when that popped cost is strictly greater than the cost currently
stored for that node in the frontier store. -/
theorem claim3_success_before_staleness [DecidableEq N] [LinearOrder C] [Add C]
    (succs : Option N → N → List (N × C)) (heuristic : N → C) (success : N → Bool)
    (st : AState N C) (hd : SmallestCostHolder C) (rest : List (SmallestCostHolder C))
    (e : N × Nat × C) (fuel : Nat)
    (hpop : popMax st.toSee = some (hd, rest))
    (hget : st.parents[hd.index]? = some e)
    (hsucc : success e.1 = true)
    (hstale : e.2.2 < hd.cost) :
    astarLoop succs heuristic success (fuel + 1) st =
      RunRes.found (pathUnfold st.parents st.parents.length hd.index) hd.cost := by
  have hstep : astarStep succs heuristic success st =
      StepRes.found (pathUnfold st.parents st.parents.length hd.index) hd.cost := by
    simp only [astarStep, hpop, hget, hsucc, if_true]
  rw [astarLoop, hstep]

theorem claim3_success_before_staleness_witness :
    astarLoop (N := Nat) (C := Int) (fun _ _ => []) (fun _ => 0) (fun _ => true) 1
      ⟨[⟨5, 5, 0⟩], [(0, USIZE_MAX, 3)]⟩ = RunRes.found [0] 5 := by
  have h := claim3_success_before_staleness (N := Nat) (C := Int)
    (fun _ _ => []) (fun _ => 0) (fun _ => true) ⟨[⟨5, 5, 0⟩], [(0, USIZE_MAX, 3)]⟩
    ⟨5, 5, 0⟩ [] (0, USIZE_MAX, 3) 0 (by decide) (by decide) rfl (by decide)
  exact h.trans (by decide)

/-! ### Claim C4: stale entries are discarded without expansion -/

/-- Claim C4: a popped entry whose node fails the success predicate and whose
cost is strictly greater than the stored cost is discarded: the resulting
state is exactly the post-pop state, independently of the successor generator
and the heuristic (so neither is invoked and the store is untouched); an
entry whose popped cost equals the stored cost is expanded. -/
theorem claim4_staleness_discard [DecidableEq N] [LinearOrder C] [Add C]
    (succs : Option N → N → List (N × C)) (heuristic : N → C) (success : N → Bool)
    (st : AState N C) (hd : SmallestCostHolder C) (rest : List (SmallestCostHolder C))
    (e : N × Nat × C)
    (hpop : popMax st.toSee = some (hd, rest))
    (hget : st.parents[hd.index]? = some e)
    (hsucc : success e.1 = false) :
    (e.2.2 < hd.cost →
      ∀ (succs' : Option N → N → List (N × C)) (heuristic' : N → C),
        astarStep succs' heuristic' success st =
          StepRes.next { st with toSee := rest }) ∧
    (hd.cost = e.2.2 →
      astarStep succs heuristic success st =
        StepRes.next ((succs ((st.parents[e.2.1]?).map fun x => x.1) e.1).foldl
          (relaxOne heuristic hd.index hd.cost) { st with toSee := rest })) := by
  constructor
  · intro hstale succs' heuristic'
    simp only [astarStep, hpop, hget, hsucc, Bool.false_eq_true, if_false,
      if_pos hstale]
  · intro heq
    have hns : ¬(e.2.2 < hd.cost) := by rw [heq]; exact lt_irrefl _
    simp only [astarStep, hpop, hget, hsucc, Bool.false_eq_true, if_false,
      if_neg hns]

theorem claim4_staleness_discard_witness :
    astarStep (N := Nat) (C := Int) (fun _ _ => [(1, 1)]) (fun _ => 50)
      (fun _ => false) ⟨[⟨5, 5, 0⟩], [(0, USIZE_MAX, 3)]⟩ =
      StepRes.next ⟨[], [(0, USIZE_MAX, 3)]⟩ ∧
    astarStep (N := Nat) (C := Int) (fun _ _ => [(1, 7)]) (fun _ => 0)
      (fun _ => false) ⟨[⟨3, 3, 0⟩], [(0, USIZE_MAX, 3)]⟩ =
      StepRes.next ⟨[⟨10, 10, 1⟩], [(0, USIZE_MAX, 3), (1, 0, 10)]⟩ := by
  constructor
  · exact (claim4_staleness_discard (fun _ _ => [(1, 1)]) (fun _ => 50)
      (fun _ => false) ⟨[⟨5, 5, 0⟩], [(0, USIZE_MAX, 3)]⟩ ⟨5, 5, 0⟩ []
      (0, USIZE_MAX, 3) (by decide) (by decide) rfl).1 (by decide)
      (fun _ _ => [(1, 1)]) (fun _ => 50)
  · have h := (claim4_staleness_discard (N := Nat) (C := Int)
      (fun _ _ => [(1, 7)]) (fun _ => 0)
      (fun _ => false) ⟨[⟨3, 3, 0⟩], [(0, USIZE_MAX, 3)]⟩ ⟨3, 3, 0⟩ []
      (0, USIZE_MAX, 3) (by decide) (by decide) rfl).2 rfl
    exact h.trans (by rfl)

/-! ### Claim C7: start node already satisfies the goal -/

/-- Claim C7: if the success predicate holds for the start node, the search
returns the single-element path containing only the start node with total
cost zero. -/
theorem claim7_start_is_goal [DecidableEq N] [LinearOrder C] [Zero C] [Add C]
    (start : N) (succs : Option N → N → List (N × C)) (heuristic : N → C)
    (success : N → Bool) (fuel : Nat)
    (hs : success start = true) :
    astar_jps (fuel + 1) start succs heuristic success = RunRes.found [start] 0 := by
  unfold astar_jps
  have hpop : popMax (C := C) [⟨0, 0, 0⟩] = some (⟨0, 0, 0⟩, []) := rfl
  have hget : ([(start, USIZE_MAX, (0 : C))])[(0 : Nat)]? =
      some (start, USIZE_MAX, 0) := rfl
  have hstep : astarStep succs heuristic success
      ⟨[⟨0, 0, 0⟩], [(start, USIZE_MAX, 0)]⟩ = StepRes.found [start] 0 := by
    simp only [astarStep, hpop, hget, hs, if_true]
    have hpath : pathUnfold [(start, USIZE_MAX, (0 : C))] 1 0 = [start] := by
      simp only [pathUnfold, hget]
    simp only [List.length_singleton, hpath]
  rw [astarLoop, hstep]

theorem claim7_start_is_goal_witness :
    astar_jps (N := Nat) (C := Int) 1 7 (fun _ _ => []) (fun _ => 0)
      (fun _ => true) = RunRes.found [7] 0 :=
  claim7_start_is_goal 7 (fun _ _ => []) (fun _ => 0) (fun _ => true) 0 rfl

/-! ### Claim C9: index stability of the frontier store -/

/-- Claim C9: across any number of loop iterations, the frontier store only
grows at the end; the node stored at any already-valid index never changes
(entries are never deleted or reindexed, improvements overwrite only the
value at the same index), and the stored cost never increases. -/
theorem claim9_index_stability [DecidableEq N] [LinearOrder C] [Add C]
    (succs : Option N → N → List (N × C)) (heuristic : N → C) (success : N → Bool)
    (st st' : AState N C)
    (h : Relation.ReflTransGen (StepsTo succs heuristic success) st st') :
    st.parents.length ≤ st'.parents.length ∧
    ∀ (j : Nat) (e : N × Nat × C), st.parents[j]? = some e →
      ∃ (p' : Nat) (c' : C), st'.parents[j]? = some (e.1, p', c') ∧ c' ≤ e.2.2 :=
  reflTrans_storeExt h

theorem claim9_index_stability_witness :
    ∃ (p' : Nat) (c' : Int),
      ([((0 : Nat), USIZE_MAX, (0 : Int)), (1, 0, 1)] : Store Nat Int)[0]? =
        some (0, p', c') ∧ c' ≤ 0 := by
  have h := claim9_index_stability (N := Nat) (C := Int)
    (fun _ n => wSuccs n) (fun _ => 0) (fun n => n == 1)
    ⟨[⟨0, 0, 0⟩], [(0, USIZE_MAX, 0)]⟩
    ⟨[⟨1, 1, 1⟩], [(0, USIZE_MAX, 0), (1, 0, 1)]⟩
    (Relation.ReflTransGen.single (by unfold StepsTo; decide))
  exact h.2 0 (0, USIZE_MAX, 0) rfl

/-! ### Claim C10: popped indices are always valid -/

/-- Claim C10: every index popped from the priority queue is valid in the
frontier store when popped, so the internal lookup that models the
`.unwrap()` never fails: no run of `astar_jps` ever reaches the `panicked`
outcome.  In particular the initial holder with index `0` is only popped
after the start node has been inserted at index `0`. -/
theorem claim10_popped_index_valid [DecidableEq N] [LinearOrder C] [Zero C] [Add C]
    (fuel : Nat) (start : N) (succs : Option N → N → List (N × C))
    (heuristic : N → C) (success : N → Bool) :
    astar_jps fuel start succs heuristic success ≠ RunRes.panicked := by
  unfold astar_jps
  apply astarLoop_ne_panicked
  intro hd hmem
  rcases List.mem_singleton.mp hmem with rfl
  exact Nat.zero_lt_one

/-! ### Reachability of stored nodes and the exhaustion characterization -/

theorem getElem?_concat_cases {α : Type} {ps : List α} {x : α} {i : Nat} {a : α}
    (h : (ps ++ [x])[i]? = some a) : ps[i]? = some a ∨ (i = ps.length ∧ a = x) := by
  by_cases hi : i < ps.length
  · rw [List.getElem?_append_left hi] at h
    exact Or.inl h
  · by_cases hie : i = ps.length
    · subst hie
      rw [List.getElem?_concat_length] at h
      injection h with h
      exact Or.inr ⟨rfl, h.symm⟩
    · have hle : (ps ++ [x]).length ≤ i := by
        simp only [List.length_append, List.length_singleton]
        omega
      rw [List.getElem?_eq_none hle] at h
      exact absurd h (by simp)

theorem getElem?_set_cases {α : Type} {ps : List α} {i : Nat} {v : α} {j : Nat} {a : α}
    (h : (ps.set i v)[j]? = some a) : ps[j]? = some a ∨ (j = i ∧ a = v) := by
  by_cases hji : j = i
  · subst hji
    by_cases hi : j < ps.length
    · rw [List.getElem?_set_self hi] at h
      injection h with h
      exact Or.inr ⟨rfl, h.symm⟩
    · rw [List.set_eq_of_length_le (le_of_not_lt hi)] at h
      exact Or.inl h
  · rw [List.getElem?_set_ne (fun he => hji he.symm)] at h
    exact Or.inl h

theorem relaxOne_reachable [DecidableEq N] [LinearOrder C] [Add C]
    {succs : Option N → N → List (N × C)} {start : N}
    (heuristic : N → C) (index : Nat) (cost : C) (st : AState N C) (sc : N × C)
    (hstore : ∀ (i : Nat) (e : N × Nat × C), st.parents[i]? = some e →
      Reachable succs start e.1)
    (hsc : Reachable succs start sc.1) :
    ∀ (i : Nat) (e : N × Nat × C),
      (relaxOne heuristic index cost st sc).parents[i]? = some e →
        Reachable succs start e.1 := by
  intro i e he
  rcases hent : entry? st.parents sc.1 with _ | ⟨i', p, c⟩
  · simp only [relaxOne, hent] at he
    rcases getElem?_concat_cases he with hold | ⟨_, rfl⟩
    · exact hstore i e hold
    · exact hsc
  · by_cases hgt : cost + sc.2 < c
    · simp only [relaxOne, hent, if_pos hgt] at he
      rcases getElem?_set_cases he with hold | ⟨_, rfl⟩
      · exact hstore i e hold
      · exact hsc
    · simp only [relaxOne, hent, if_neg hgt] at he
      exact hstore i e he

theorem foldl_relax_reachable [DecidableEq N] [LinearOrder C] [Add C]
    {succs : Option N → N → List (N × C)} {start : N}
    (heuristic : N → C) (index : Nat) (cost : C) :
    ∀ (l : List (N × C)) (st : AState N C),
      (∀ (i : Nat) (e : N × Nat × C), st.parents[i]? = some e →
        Reachable succs start e.1) →
      (∀ sc ∈ l, Reachable succs start sc.1) →
      ∀ (i : Nat) (e : N × Nat × C),
        ((l.foldl (relaxOne heuristic index cost) st).parents[i]? = some e) →
          Reachable succs start e.1
  | [], st, hstore, _, i, e, he => hstore i e he
  | sc :: l, st, hstore, hl, i, e, he =>
    foldl_relax_reachable heuristic index cost l
      (relaxOne heuristic index cost st sc)
      (relaxOne_reachable heuristic index cost st sc hstore
        (hl sc (List.mem_cons_self _ _)))
      (fun x hx => hl x (List.mem_cons_of_mem _ hx)) i e he

theorem stepsTo_reachable [DecidableEq N] [LinearOrder C] [Add C]
    {succs : Option N → N → List (N × C)} {heuristic : N → C} {success : N → Bool}
    {start : N} {st st' : AState N C}
    (hstore : ∀ (i : Nat) (e : N × Nat × C), st.parents[i]? = some e →
      Reachable succs start e.1)
    (h : StepsTo succs heuristic success st st') :
    ∀ (i : Nat) (e : N × Nat × C), st'.parents[i]? = some e →
      Reachable succs start e.1 := by
  obtain ⟨hd, rest, e, hpop, hget, hs, hcase⟩ := astarStep_next_inv h
  rcases hcase with ⟨_, rfl⟩ | ⟨_, rfl⟩
  · exact hstore
  · refine foldl_relax_reachable heuristic hd.index hd.cost _ _ hstore ?_
    intro sc hsc
    exact Reachable.step (hstore hd.index e hget) hsc

theorem astarLoop_found_reachable [DecidableEq N] [LinearOrder C] [Add C]
    {succs : Option N → N → List (N × C)} {heuristic : N → C} {success : N → Bool}
    {start : N} :
    ∀ {fuel : Nat} {st : AState N C} {path : List N} {total : C},
      (∀ (i : Nat) (e : N × Nat × C), st.parents[i]? = some e →
        Reachable succs start e.1) →
      astarLoop succs heuristic success fuel st = RunRes.found path total →
      ∃ m, Reachable succs start m ∧ success m = true := by
  intro fuel
  induction fuel with
  | zero => intro st path total _ h; simp [astarLoop] at h
  | succ f ih =>
    intro st path total hstore h
    rw [astarLoop] at h
    cases hstep : astarStep succs heuristic success st with
    | found p c =>
      obtain ⟨hd, rest, e, hpop, hget, hsucc, _, _⟩ := astarStep_found_inv hstep
      exact ⟨e.1, hstore hd.index e hget, hsucc⟩
    | exhausted => rw [hstep] at h; exact absurd h (by simp)
    | panicked => rw [hstep] at h; exact absurd h (by simp)
    | next st' =>
      rw [hstep] at h
      exact ih (stepsTo_reachable hstore hstep) h

theorem astarLoop_exhausted_iff [DecidableEq N] [LinearOrder C] [Add C]
    {succs : Option N → N → List (N × C)} {heuristic : N → C} {success : N → Bool} :
    ∀ {fuel : Nat} {st : AState N C},
      astarLoop succs heuristic success fuel st = RunRes.exhausted ↔
      ∃ k, k < fuel ∧ ∃ st', iterCont succs heuristic success k st = some st' ∧
        st'.toSee = [] := by
  intro fuel
  induction fuel with
  | zero =>
    intro st
    simp [astarLoop]
  | succ f ih =>
    intro st
    rw [astarLoop]
    cases hstep : astarStep succs heuristic success st with
    | found p c =>
      simp only [reduceCtorEq, false_iff, not_exists]
      rintro k ⟨hk, st', hiter, hnil⟩
      cases k with
      | zero =>
        simp only [iterCont, Option.some.injEq] at hiter
        subst hiter
        rw [astarStep_exhausted_iff.mpr hnil] at hstep
        exact absurd hstep (by simp)
      | succ k =>
        rw [iterCont, hstep] at hiter
        exact absurd hiter (by simp)
    | exhausted =>
      simp only [true_iff]
      exact ⟨0, Nat.succ_pos _, st, rfl, astarStep_exhausted_iff.mp hstep⟩
    | panicked =>
      simp only [reduceCtorEq, false_iff, not_exists]
      rintro k ⟨hk, st', hiter, hnil⟩
      cases k with
      | zero =>
        simp only [iterCont, Option.some.injEq] at hiter
        subst hiter
        rw [astarStep_exhausted_iff.mpr hnil] at hstep
        exact absurd hstep (by simp)
      | succ k =>
        rw [iterCont, hstep] at hiter
        exact absurd hiter (by simp)
    | next st' =>
      rw [ih]
      constructor
      · rintro ⟨k, hk, st'', hiter, hnil⟩
        refine ⟨k + 1, Nat.succ_lt_succ hk, st'', ?_, hnil⟩
        rw [iterCont, hstep]
        exact hiter
      · rintro ⟨k, hk, st'', hiter, hnil⟩
        cases k with
        | zero =>
          simp only [iterCont, Option.some.injEq] at hiter
          subst hiter
          rw [astarStep_exhausted_iff.mpr hnil] at hstep
          exact absurd hstep (by simp)
        | succ k =>
          rw [iterCont, hstep] at hiter
          exact ⟨k, Nat.lt_of_succ_lt_succ hk, st'', hiter, hnil⟩

/-! ### Claim C8: exhaustion returns None -/

/-- Claim C8: if no reachable node satisfies the success predicate, a run of
`astar_jps` never returns a path; the `exhausted` outcome (the model of
returning `None`) occurs exactly when the priority queue empties within the
available fuel without a successful pop; and no run panics, so `None` is the
only non-`Some` outcome of a completed run. -/
theorem claim8_exhaustion [DecidableEq N] [LinearOrder C] [Zero C] [Add C]
    (fuel : Nat) (start : N) (succs : Option N → N → List (N × C))
    (heuristic : N → C) (success : N → Bool) :
    ((∀ m, Reachable succs start m → success m = false) →
      ∀ (path : List N) (total : C),
        astar_jps fuel start succs heuristic success ≠ RunRes.found path total) ∧
    (astar_jps fuel start succs heuristic success = RunRes.exhausted ↔
      ∃ k, k < fuel ∧ ∃ st', iterCont succs heuristic success k
        ⟨[⟨0, 0, 0⟩], [(start, USIZE_MAX, 0)]⟩ = some st' ∧ st'.toSee = []) ∧
    astar_jps fuel start succs heuristic success ≠ RunRes.panicked := by
  have hstore : ∀ (i : Nat) (e : N × Nat × C),
      ([(start, USIZE_MAX, (0 : C))] : Store N C)[i]? = some e →
        Reachable succs start e.1 := by
    intro i e he
    cases i with
    | zero =>
      rw [List.getElem?_cons_zero] at he
      injection he with he
      subst he
      exact Reachable.base
    | succ j => rw [List.getElem?_cons_succ] at he; exact absurd he (by simp)
  refine ⟨?_, ?_, ?_⟩
  · intro hnone path total hfound
    obtain ⟨m, hm, hsucc⟩ := astarLoop_found_reachable hstore hfound
    rw [hnone m hm] at hsucc
    exact absurd hsucc (by simp)
  · exact astarLoop_exhausted_iff
  · apply astarLoop_ne_panicked
    intro hd hmem
    rcases List.mem_singleton.mp hmem with rfl
    exact Nat.zero_lt_one

theorem claim8_exhaustion_witness :
    astar_jps (N := Nat) (C := Int) 5 0 (fun _ n => wSuccs n) (fun _ => 0)
      (fun _ => false) ≠ RunRes.found [1, 0] 1 ∧
    astar_jps (N := Nat) (C := Int) 5 0 (fun _ n => wSuccs n) (fun _ => 0)
      (fun _ => false) = RunRes.exhausted := by
  have h := claim8_exhaustion (N := Nat) (C := Int) 5 0 (fun _ n => wSuccs n)
    (fun _ => 0) (fun _ => false)
  constructor
  · exact h.1 (fun m _ => rfl) [1, 0] 1
  · exact h.2.1.mpr ⟨2, by omega,
      ⟨[], [(0, USIZE_MAX, 0), (1, 0, 1)]⟩, by decide, rfl⟩

/-! ### Parent chains and path reconstruction -/

theorem pathUnfold_none {ps : Store N C} {j : Nat} (h : ps[j]? = none) :
    ∀ fuel, pathUnfold ps fuel j = []
  | 0 => rfl
  | fuel + 1 => by rw [pathUnfold, h]

theorem chain_indices_lt {ps : Store N C} {i : Nat} {is : List Nat}
    (h : Chain ps i is) : ∀ j ∈ is, j < ps.length := by
  induction h with
  | last hi hnone =>
    intro j hj
    rcases List.mem_singleton.mp hj with rfl
    exact getElem?_some_lt hi
  | cons hi hch ih =>
    intro j hj
    rcases List.mem_cons.mp hj with rfl | hj
    · exact getElem?_some_lt hi
    · exact ih j hj

theorem chain_cons_shape {ps : Store N C} {i : Nat} {is : List Nat}
    (h : Chain ps i is) : ∃ tl, is = i :: tl := by
  cases h with
  | last hi hnone => exact ⟨[], rfl⟩
  | cons hi hch => exact ⟨_, rfl⟩

theorem chain_getLast {ps : Store N C} {i : Nat} {is : List Nat}
    (h : Chain ps i is) :
    ∃ (t : Nat) (et : N × Nat × C), is.getLast? = some t ∧ ps[t]? = some et ∧
      ps[et.2.1]? = none := by
  induction h with
  | last hi hnone => exact ⟨_, _, rfl, hi, hnone⟩
  | cons hi hch ih =>
    obtain ⟨t, et, hl, ht, hs⟩ := ih
    obtain ⟨tl, rfl⟩ := chain_cons_shape hch
    exact ⟨t, et, by rw [List.getLast?_cons_cons]; exact hl, ht, hs⟩

theorem chain_length_le {ps : Store N C} {i : Nat} {is : List Nat}
    (hchain : Chain ps i is) (hnodup : is.Nodup) : is.length ≤ ps.length := by
  have hsub : is.toFinset ⊆ Finset.range ps.length := by
    intro j hj
    rw [List.mem_toFinset] at hj
    rw [Finset.mem_range]
    exact chain_indices_lt hchain j hj
  have hcard := Finset.card_le_card hsub
  rwa [List.toFinset_card_of_nodup hnodup, Finset.card_range] at hcard

theorem pathUnfold_chain {ps : Store N C} {i : Nat} {is : List Nat}
    (h : Chain ps i is) :
    ∀ {fuel : Nat}, is.length ≤ fuel →
      pathUnfold ps fuel i = is.filterMap fun j => (ps[j]?).map fun e => e.1 := by
  induction h with
  | last hi hnone =>
    intro fuel hfuel
    cases fuel with
    | zero => simp at hfuel
    | succ f =>
      simp only [pathUnfold, hi]
      rw [pathUnfold_none hnone]
      simp [List.filterMap_cons, hi]
  | cons hi hch ih =>
    intro fuel hfuel
    cases fuel with
    | zero => simp at hfuel
    | succ f =>
      simp only [pathUnfold, hi]
      rw [ih (by simpa using Nat.le_of_succ_le_succ hfuel)]
      simp [List.filterMap_cons, hi]

theorem getLast?_filterMap_some {α β : Type} (f : α → Option β) :
    ∀ (l : List α) (t : α) (b : β), l.getLast? = some t → f t = some b →
      (∀ x ∈ l, (f x).isSome = true) → (l.filterMap f).getLast? = some b
  | [], t, b, h, _, _ => by simp at h
  | [x], t, b, h, hf, hall => by
    simp only [List.getLast?_singleton, Option.some.injEq] at h
    subst h
    simp [List.filterMap_cons, hf]
  | x :: y :: l, t, b, h, hf, hall => by
    rw [List.getLast?_cons_cons] at h
    obtain ⟨bx, hbx⟩ := Option.isSome_iff_exists.mp (hall x (List.mem_cons_self _ _))
    rw [List.filterMap_cons, hbx]
    have hrec := getLast?_filterMap_some f (y :: l) t b h hf
      (fun z hz => hall z (List.mem_cons_of_mem _ hz))
    cases hfm : List.filterMap f (y :: l) with
    | nil => rw [hfm] at hrec; simp at hrec
    | cons z zs =>
      rw [hfm] at hrec
      rw [List.getLast?_cons_cons]
      exact hrec

theorem length_filterMap_of_some {α β : Type} (f : α → Option β) :
    ∀ (l : List α), (∀ x ∈ l, (f x).isSome = true) →
      (l.filterMap f).length = l.length
  | [], _ => rfl
  | x :: l, hall => by
    obtain ⟨bx, hbx⟩ := Option.isSome_iff_exists.mp (hall x (List.mem_cons_self _ _))
    rw [List.filterMap_cons, hbx, List.length_cons, List.length_cons,
      length_filterMap_of_some f l (fun z hz => hall z (List.mem_cons_of_mem _ hz))]

/-! ### Claim C6 (corrected): the reconstructed path -/

/-- Claim C6, amended: for every successful search in which the frontier
store's parent chain from the terminal index is acyclic, the returned path
lists exactly the chain's nodes: it starts at the goal node, on each step
yields the node at the current index and advances to the parent index, and
terminates exactly after yielding the node whose frontier entry holds an
out-of-range (sentinel) parent index — the start node's entry under normal
(non-negative-cost) operation; the sequence is finite, ordered goal to
sentinel entry inclusive. -/
theorem claim6_goal_to_start_path [DecidableEq N] [LinearOrder C] [Add C]
    (succs : Option N → N → List (N × C)) (heuristic : N → C) (success : N → Bool)
    (st : AState N C) (hd : SmallestCostHolder C) (rest : List (SmallestCostHolder C))
    (path : List N) (total : C) (is : List Nat)
    (hpop : popMax st.toSee = some (hd, rest))
    (hstep : astarStep succs heuristic success st = StepRes.found path total)
    (hchain : Chain st.parents hd.index is)
    (hnodup : is.Nodup) :
    path = is.filterMap (fun j => (st.parents[j]?).map fun e => e.1) ∧
    (∃ e, st.parents[hd.index]? = some e ∧ success e.1 = true ∧
      path.head? = some e.1) ∧
    (∃ (t : Nat) (et : N × Nat × C), is.getLast? = some t ∧
      st.parents[t]? = some et ∧ st.parents[et.2.1]? = none ∧
      path.getLast? = some et.1) ∧
    path.length = is.length := by
  obtain ⟨hd', rest', e, hpop', hget, hsucc, hpath, htotal⟩ := astarStep_found_inv hstep
  have hhd : hd' = hd ∧ rest' = rest := by
    have h2 := hpop'.symm.trans hpop
    simp only [Option.some.injEq, Prod.mk.injEq] at h2
    exact h2
  obtain ⟨rfl, rfl⟩ := hhd
  have hall : ∀ j ∈ is, (((st.parents[j]?).map fun e => e.1)).isSome = true := by
    intro j hj
    rw [List.getElem?_eq_getElem (chain_indices_lt hchain j hj)]
    rfl
  have hfm : path = is.filterMap fun j => (st.parents[j]?).map fun e => e.1 := by
    rw [hpath]
    exact pathUnfold_chain hchain (chain_length_le hchain hnodup)
  refine ⟨hfm, ⟨e, hget, hsucc, ?_⟩, ?_, ?_⟩
  · obtain ⟨tl, rfl⟩ := chain_cons_shape hchain
    rw [hfm, List.filterMap_cons, hget]
    rfl
  · obtain ⟨t, et, hl, ht, hs⟩ := chain_getLast hchain
    refine ⟨t, et, hl, ht, hs, ?_⟩
    rw [hfm]
    exact getLast?_filterMap_some _ is t et.1 hl (by rw [ht]; rfl) hall
  · rw [hfm]
    exact length_filterMap_of_some _ is hall

theorem claim6_goal_to_start_path_witness :
    ([(1 : Nat), 0].head? = some 1) ∧ ([(1 : Nat), 0].getLast? = some 0) := by
  have h := claim6_goal_to_start_path (N := Nat) (C := Int)
    (fun _ n => wSuccs n) (fun _ => 0) (fun n => n == 1)
    ⟨[⟨1, 1, 1⟩], [(0, USIZE_MAX, 0), (1, 0, 1)]⟩ ⟨1, 1, 1⟩ []
    [1, 0] 1 [1, 0] (by decide) (by decide)
    (Chain.cons (e := (1, 0, 1)) (by decide)
      (Chain.last (e := (0, USIZE_MAX, 0)) (by decide) (by decide)))
    (by decide)
  refine ⟨?_, ?_⟩
  · obtain ⟨-, ⟨e, hget, -, hhead⟩, -, -⟩ := h
    have he : ((1 : Nat), (0 : Nat), (1 : Int)) = e := by
      have h0 : (([((0 : Nat), USIZE_MAX, (0 : Int)), (1, 0, 1)] :
          Store Nat Int))[(1 : Nat)]? = some ((1 : Nat), (0 : Nat), (1 : Int)) := rfl
      injection h0.symm.trans hget
    subst he
    exact hhead
  · obtain ⟨-, -, ⟨t, et, hlastIdx, hts, -, hlast⟩, -⟩ := h
    have ht : (0 : Nat) = t := by
      have h0 : ([(1 : Nat), 0].getLast? = some 0) := rfl
      injection h0.symm.trans hlastIdx
    subst ht
    have he : ((0 : Nat), USIZE_MAX, (0 : Int)) = et := by
      have h0 : (([((0 : Nat), USIZE_MAX, (0 : Int)), (1, 0, 1)] :
          Store Nat Int))[(0 : Nat)]? = some ((0 : Nat), USIZE_MAX, (0 : Int)) := rfl
      injection h0.symm.trans hts
    subst he
    exact hlast

/-- Counterexample to claim C6 as stated: with a negative move cost a
relaxation rewrites node `1`'s parent to its own descendant, so the parent
chain from the terminal index cycles and the returned path of a successful
search never reaches the start node `0`. -/
theorem claim6_counterexample :
    astar_jps 5 (0 : Nat) (fun _ n => cSuccs n) cHeur (fun n => n == 3) =
      RunRes.found [3, 1, 2, 1] 12 ∧
    (0 : Nat) ∉ ([3, 1, 2, 1] : List Nat) := by
  constructor
  · decide
  · decide

/-! ### Walk-cost arithmetic for the optimality proof -/

theorem reach_nonneg [LinearOrderedAddCommMonoid C] {succsOf : N → List (N × C)}
    (hmc : NonnegCosts succsOf) {n y : N} {g : C}
    (h : ReachFrom succsOf n y g) : 0 ≤ g := by
  induction h with
  | refl => exact le_refl 0
  | tail hr hsc ih => exact add_nonneg ih (hmc _ _ hsc)

theorem reach_append [LinearOrderedAddCommMonoid C] {succsOf : N → List (N × C)}
    {n y z : N} {g d : C}
    (h1 : ReachFrom succsOf n y g) (h2 : ReachFrom succsOf y z d) :
    ReachFrom succsOf n z (g + d) := by
  induction h2 with
  | refl => rw [add_zero]; exact h1
  | tail hr hsc ih =>
    rw [← add_assoc]
    exact ReachFrom.tail ih hsc

theorem reach_heuristic_le [LinearOrderedAddCommMonoid C]
    {succsOf : N → List (N × C)} {heuristic : N → C}
    (hcons : Consistent succsOf heuristic) {z m : N} {d : C}
    (h : ReachFrom succsOf z m d) : heuristic z ≤ d + heuristic m := by
  induction h with
  | refl => rw [zero_add]
  | tail hr hsc ih =>
    calc heuristic z ≤ _ + heuristic _ := ih
    _ ≤ _ + (_ + heuristic _) := by
        exact add_le_add_left (hcons _ _ hsc) _
    _ = _ := by rw [← add_assoc]

theorem heuristic_goal_eq_zero [LinearOrderedAddCommMonoid C]
    {succsOf : N → List (N × C)} {heuristic : N → C} {success : N → Bool}
    (hh0 : NonnegHeuristic heuristic)
    (hadm : Admissible succsOf success heuristic)
    {m : N} (hm : success m = true) : heuristic m = 0 :=
  le_antisymm (by simpa using hadm m m 0 hm (ReachFrom.refl m)) (hh0 m)

/-! ### `doneUB` is monotone along relaxations -/

theorem relaxOne_doneUB [DecidableEq N] [LinearOrder C] [Add C]
    {heuristic : N → C} {index : Nat} {cost : C} {st : AState N C} {sc : N × C}
    {k : N} {b : C}
    (h : doneUB st.parents k b) :
    doneUB (relaxOne heuristic index cost st sc).parents k b := by
  obtain ⟨j, p, cj, hent, hle⟩ := h
  rcases hent2 : entry? st.parents sc.1 with _ | ⟨i', p', c'⟩
  · simp only [relaxOne, hent2]
    exact ⟨j, p, cj, entry?_append_of_some _ hent, hle⟩
  · by_cases hgt : cost + sc.2 < c'
    · have hi' := entry?_some_getElem hent2
      simp only [relaxOne, hent2, if_pos hgt]
      unfold doneUB
      rw [entry?_set_same_key hi' k, hent]
      by_cases hji : j = i'
      · subst hji
        have hj1 := entry?_some_getElem hent
        have hkey : ((k, p, cj) : N × Nat × C) = (sc.1, p', c') := by
          have h3 := hj1.symm.trans hi'
          injection h3
        have hc1 : cj = c' := by
          simp only [Prod.mk.injEq] at hkey
          exact hkey.2.2
        refine ⟨j, index, cost + sc.2, by simp, ?_⟩
        exact (le_of_lt (hc1 ▸ hgt)).trans hle
      · exact ⟨j, p, cj, by simp [hji], hle⟩
    · simp only [relaxOne, hent2, if_neg hgt]
      exact ⟨j, p, cj, hent, hle⟩

/-! ### Characterizing the effect of one relaxation -/

theorem relaxOne_toSee_cases [DecidableEq N] [LinearOrder C] [Add C]
    (heuristic : N → C) (index : Nat) (cost : C) (st : AState N C) (sc : N × C) :
    (relaxOne heuristic index cost st sc).toSee = st.toSee ∨
    ∃ (i : Nat), (relaxOne heuristic index cost st sc).toSee =
      (⟨cost + sc.2 + heuristic sc.1, cost + sc.2, i⟩ : SmallestCostHolder C)
        :: st.toSee ∧
      (relaxOne heuristic index cost st sc).parents[i]? =
        some (sc.1, index, cost + sc.2) := by
  rcases hent : entry? st.parents sc.1 with _ | ⟨i', p', c'⟩
  · refine Or.inr ⟨st.parents.length, ?_, ?_⟩
    · simp only [relaxOne, hent]
    · simp only [relaxOne, hent]
      exact List.getElem?_concat_length _ _
  · by_cases hgt : cost + sc.2 < c'
    · refine Or.inr ⟨i', ?_, ?_⟩
      · simp only [relaxOne, hent, if_pos hgt]
      · simp only [relaxOne, hent, if_pos hgt]
        exact List.getElem?_set_self (getElem?_some_lt (entry?_some_getElem hent))
    · refine Or.inl ?_
      simp only [relaxOne, hent, if_neg hgt]

theorem relaxOne_parents_cases [DecidableEq N] [LinearOrder C] [Add C]
    (heuristic : N → C) (index : Nat) (cost : C) (st : AState N C) (sc : N × C) :
    ∀ (i : Nat) (e : N × Nat × C),
      (relaxOne heuristic index cost st sc).parents[i]? = some e →
      st.parents[i]? = some e ∨
      (e = (sc.1, index, cost + sc.2) ∧
        ∃ hd ∈ (relaxOne heuristic index cost st sc).toSee,
          hd.index = i ∧ hd.cost = cost + sc.2) := by
  intro i e he
  rcases hent : entry? st.parents sc.1 with _ | ⟨i', p', c'⟩
  · simp only [relaxOne, hent] at he ⊢
    rcases getElem?_concat_cases he with hold | ⟨rfl, rfl⟩
    · exact Or.inl hold
    · exact Or.inr ⟨rfl,
        ⟨_, List.mem_cons_self _ _, rfl, rfl⟩⟩
  · by_cases hgt : cost + sc.2 < c'
    · simp only [relaxOne, hent, if_pos hgt] at he ⊢
      rcases getElem?_set_cases he with hold | ⟨rfl, rfl⟩
      · exact Or.inl hold
      · exact Or.inr ⟨rfl,
          ⟨_, List.mem_cons_self _ _, rfl, rfl⟩⟩
    · simp only [relaxOne, hent, if_neg hgt] at he
      exact Or.inl he

theorem relaxOne_self_done [DecidableEq N] [LinearOrder C] [Add C]
    (heuristic : N → C) (index : Nat) (cost : C) (st : AState N C) (sc : N × C) :
    doneUB (relaxOne heuristic index cost st sc).parents sc.1 (cost + sc.2) := by
  rcases hent : entry? st.parents sc.1 with _ | ⟨i', p', c'⟩
  · simp only [relaxOne, hent]
    exact ⟨st.parents.length, index, cost + sc.2,
      entry?_append_fresh _ hent, le_refl _⟩
  · by_cases hgt : cost + sc.2 < c'
    · have hi' := entry?_some_getElem hent
      simp only [relaxOne, hent, if_pos hgt]
      unfold doneUB
      rw [entry?_set_same_key hi' sc.1, hent]
      exact ⟨i', index, cost + sc.2, by simp, le_refl _⟩
    · simp only [relaxOne, hent, if_neg hgt]
      exact ⟨i', p', c', hent, not_lt.mp hgt⟩

theorem relaxOne_popped_entry_stable [DecidableEq N] [LinearOrderedAddCommMonoid C]
    {heuristic : N → C} {i₀ : Nat} {c₀ : C} {st : AState N C} {sc : N × C}
    {n₀ : N} {p₀ : Nat}
    (hH : st.parents[i₀]? = some (n₀, p₀, c₀)) (hnn : (0 : C) ≤ sc.2) :
    (relaxOne heuristic i₀ c₀ st sc).parents[i₀]? = some (n₀, p₀, c₀) := by
  rcases hent : entry? st.parents sc.1 with _ | ⟨i', p', c'⟩
  · simp only [relaxOne, hent]
    rw [List.getElem?_append_left (getElem?_some_lt hH)]
    exact hH
  · by_cases hgt : c₀ + sc.2 < c'
    · have hi' := entry?_some_getElem hent
      have hne : i₀ ≠ i' := by
        intro heq
        subst heq
        have hee := hH.symm.trans hi'
        injection hee with hee
        have hc : c' = c₀ := by
          simp only [Prod.mk.injEq] at hee
          exact hee.2.2.symm
        subst hc
        exact absurd (lt_of_le_of_lt (le_add_of_nonneg_right hnn) hgt)
          (lt_irrefl _)
      simp only [relaxOne, hent, if_pos hgt]
      rw [List.getElem?_set_ne hne.symm]
      exact hH
    · simp only [relaxOne, hent, if_neg hgt]
      exact hH

/-! ### Invariant preservation through one relaxation -/

theorem relaxOne_inv_step [DecidableEq N] [LinearOrderedAddCommMonoid C]
    {succsOf : N → List (N × C)} {heuristic : N → C} {success : N → Bool} {start : N}
    {i₀ p₀ : Nat} {n₀ : N} {c₀ : C} {st : AState N C} {sc : N × C}
    (hreach0 : ReachFrom succsOf start n₀ c₀)
    (hsc : sc ∈ succsOf n₀)
    (hnn : (0 : C) ≤ sc.2)
    (hH : st.parents[i₀]? = some (n₀, p₀, c₀))
    (hA : IdxOk st)
    (hB : ∀ hd ∈ st.toSee, ∃ e, st.parents[hd.index]? = some e ∧ e.2.2 ≤ hd.cost)
    (hC : ∀ hd ∈ st.toSee,
      (∃ e, st.parents[hd.index]? = some e ∧
        hd.estimated_cost = hd.cost + heuristic e.1) ∨
      (hd.estimated_cost = 0 ∧ hd.cost = 0))
    (hD : ∀ hd ∈ st.toSee, ∃ e, st.parents[hd.index]? = some e ∧
      ReachFrom succsOf start e.1 hd.cost)
    (hE : ∀ (i : Nat) (e : N × Nat × C), st.parents[i]? = some e → i ≠ i₀ →
      openW st i e.2.2 ∨
      ∀ sc' ∈ succsOf e.1, doneUB st.parents sc'.1 (e.2.2 + sc'.2))
    (hF : ∀ (i : Nat) (e : N × Nat × C), st.parents[i]? = some e →
      success e.1 = true → openW st i e.2.2) :
    (relaxOne heuristic i₀ c₀ st sc).parents[i₀]? = some (n₀, p₀, c₀) ∧
    IdxOk (relaxOne heuristic i₀ c₀ st sc) ∧
    (∀ hd ∈ (relaxOne heuristic i₀ c₀ st sc).toSee,
      ∃ e, (relaxOne heuristic i₀ c₀ st sc).parents[hd.index]? = some e ∧
        e.2.2 ≤ hd.cost) ∧
    (∀ hd ∈ (relaxOne heuristic i₀ c₀ st sc).toSee,
      (∃ e, (relaxOne heuristic i₀ c₀ st sc).parents[hd.index]? = some e ∧
        hd.estimated_cost = hd.cost + heuristic e.1) ∨
      (hd.estimated_cost = 0 ∧ hd.cost = 0)) ∧
    (∀ hd ∈ (relaxOne heuristic i₀ c₀ st sc).toSee,
      ∃ e, (relaxOne heuristic i₀ c₀ st sc).parents[hd.index]? = some e ∧
        ReachFrom succsOf start e.1 hd.cost) ∧
    (∀ (i : Nat) (e : N × Nat × C),
      (relaxOne heuristic i₀ c₀ st sc).parents[i]? = some e → i ≠ i₀ →
      openW (relaxOne heuristic i₀ c₀ st sc) i e.2.2 ∨
      ∀ sc' ∈ succsOf e.1,
        doneUB (relaxOne heuristic i₀ c₀ st sc).parents sc'.1 (e.2.2 + sc'.2)) ∧
    (∀ (i : Nat) (e : N × Nat × C),
      (relaxOne heuristic i₀ c₀ st sc).parents[i]? = some e →
      success e.1 = true → openW (relaxOne heuristic i₀ c₀ st sc) i e.2.2) ∧
    doneUB (relaxOne heuristic i₀ c₀ st sc).parents sc.1 (c₀ + sc.2) := by
  have hExt := relaxOne_storeExt heuristic i₀ c₀ st sc
  refine ⟨relaxOne_popped_entry_stable hH hnn,
    relaxOne_idxOk heuristic i₀ c₀ st sc hA, ?_, ?_, ?_, ?_, ?_,
    relaxOne_self_done heuristic i₀ c₀ st sc⟩
  · intro hd hmem
    rcases relaxOne_toSee_cases heuristic i₀ c₀ st sc with heq | ⟨i, heq, hentry⟩
    · rw [heq] at hmem
      obtain ⟨e, hent, hle⟩ := hB hd hmem
      obtain ⟨p', c', hent', hle'⟩ := hExt.2 hd.index e hent
      exact ⟨(e.1, p', c'), hent', hle'.trans hle⟩
    · rw [heq] at hmem
      rcases List.mem_cons.mp hmem with rfl | hmem
      · exact ⟨(sc.1, i₀, c₀ + sc.2), hentry, le_refl _⟩
      · obtain ⟨e, hent, hle⟩ := hB hd hmem
        obtain ⟨p', c', hent', hle'⟩ := hExt.2 hd.index e hent
        exact ⟨(e.1, p', c'), hent', hle'.trans hle⟩
  · intro hd hmem
    rcases relaxOne_toSee_cases heuristic i₀ c₀ st sc with heq | ⟨i, heq, hentry⟩
    · rw [heq] at hmem
      rcases hC hd hmem with ⟨e, hent, hest⟩ | hinit
      · obtain ⟨p', c', hent', -⟩ := hExt.2 hd.index e hent
        exact Or.inl ⟨(e.1, p', c'), hent', hest⟩
      · exact Or.inr hinit
    · rw [heq] at hmem
      rcases List.mem_cons.mp hmem with rfl | hmem
      · exact Or.inl ⟨(sc.1, i₀, c₀ + sc.2), hentry, rfl⟩
      · rcases hC hd hmem with ⟨e, hent, hest⟩ | hinit
        · obtain ⟨p', c', hent', -⟩ := hExt.2 hd.index e hent
          exact Or.inl ⟨(e.1, p', c'), hent', hest⟩
        · exact Or.inr hinit
  · intro hd hmem
    rcases relaxOne_toSee_cases heuristic i₀ c₀ st sc with heq | ⟨i, heq, hentry⟩
    · rw [heq] at hmem
      obtain ⟨e, hent, hre⟩ := hD hd hmem
      obtain ⟨p', c', hent', -⟩ := hExt.2 hd.index e hent
      exact ⟨(e.1, p', c'), hent', hre⟩
    · rw [heq] at hmem
      rcases List.mem_cons.mp hmem with rfl | hmem
      · exact ⟨(sc.1, i₀, c₀ + sc.2), hentry, ReachFrom.tail hreach0 hsc⟩
      · obtain ⟨e, hent, hre⟩ := hD hd hmem
        obtain ⟨p', c', hent', -⟩ := hExt.2 hd.index e hent
        exact ⟨(e.1, p', c'), hent', hre⟩
  · intro i e hi hne
    rcases relaxOne_parents_cases heuristic i₀ c₀ st sc i e hi with
      hold | ⟨rfl, hd₂, hmem₂, hidx, hcost⟩
    · rcases hE i e hold hne with ⟨hd₂, hmem₂, hidx, hcost⟩ | hdone
      · exact Or.inl ⟨hd₂, relaxOne_toSee_mem heuristic i₀ c₀ st sc hmem₂,
          hidx, hcost⟩
      · exact Or.inr fun sc' hsc' => relaxOne_doneUB (hdone sc' hsc')
    · exact Or.inl ⟨hd₂, hmem₂, hidx, le_of_eq hcost⟩
  · intro i e hi hsuccm
    rcases relaxOne_parents_cases heuristic i₀ c₀ st sc i e hi with
      hold | ⟨rfl, hd₂, hmem₂, hidx, hcost⟩
    · obtain ⟨hd₂, hmem₂, hidx, hcost⟩ := hF i e hold hsuccm
      exact ⟨hd₂, relaxOne_toSee_mem heuristic i₀ c₀ st sc hmem₂, hidx, hcost⟩
    · exact ⟨hd₂, hmem₂, hidx, le_of_eq hcost⟩

theorem relaxOne_midInv [DecidableEq N] [LinearOrderedAddCommMonoid C]
    {succsOf : N → List (N × C)} {heuristic : N → C} {success : N → Bool} {start : N}
    {i₀ p₀ : Nat} {n₀ : N} {c₀ : C} {st : AState N C} {sc : N × C}
    (hreach0 : ReachFrom succsOf start n₀ c₀)
    (hsc : sc ∈ succsOf n₀)
    (hnn : (0 : C) ≤ sc.2)
    (h : MidInv succsOf heuristic success start i₀ n₀ p₀ c₀ st) :
    MidInv succsOf heuristic success start i₀ n₀ p₀ c₀
      (relaxOne heuristic i₀ c₀ st sc) ∧
    doneUB (relaxOne heuristic i₀ c₀ st sc).parents sc.1 (c₀ + sc.2) := by
  obtain ⟨hH, hA, hB, hC, hD, hE, hF⟩ := h
  have h2 := relaxOne_inv_step hreach0 hsc hnn hH hA hB hC hD hE hF
  exact ⟨⟨h2.1, h2.2.1, h2.2.2.1, h2.2.2.2.1, h2.2.2.2.2.1,
    h2.2.2.2.2.2.1, h2.2.2.2.2.2.2.1⟩, h2.2.2.2.2.2.2.2⟩

theorem foldl_relax_midInv [DecidableEq N] [LinearOrderedAddCommMonoid C]
    {succsOf : N → List (N × C)} {heuristic : N → C} {success : N → Bool} {start : N}
    {i₀ p₀ : Nat} {n₀ : N} {c₀ : C}
    (hreach0 : ReachFrom succsOf start n₀ c₀)
    (hmc : NonnegCosts succsOf) :
    ∀ (scs : List (N × C)) (st : AState N C),
      (∀ sc ∈ scs, sc ∈ succsOf n₀) →
      MidInv succsOf heuristic success start i₀ n₀ p₀ c₀ st →
      MidInv succsOf heuristic success start i₀ n₀ p₀ c₀
        (scs.foldl (relaxOne heuristic i₀ c₀) st) ∧
      (∀ sc ∈ scs,
        doneUB ((scs.foldl (relaxOne heuristic i₀ c₀) st)).parents sc.1
          (c₀ + sc.2)) ∧
      (∀ (k : N) (b : C), doneUB st.parents k b →
        doneUB ((scs.foldl (relaxOne heuristic i₀ c₀) st)).parents k b)
  | [], st, _, h => ⟨h, by simp, fun k b hk => hk⟩
  | sc :: scs, st, hsub, h => by
    have hsc0 := hsub sc (List.mem_cons_self _ _)
    have hone := relaxOne_midInv hreach0 hsc0 (hmc n₀ sc hsc0) h
    have hrec := foldl_relax_midInv hreach0 hmc scs
      (relaxOne heuristic i₀ c₀ st sc)
      (fun x hx => hsub x (List.mem_cons_of_mem _ hx)) hone.1
    refine ⟨hrec.1, ?_, ?_⟩
    · intro sc' hsc'
      rcases List.mem_cons.mp hsc' with rfl | hsc'
      · exact hrec.2.2 sc'.1 (c₀ + sc'.2) hone.2
      · exact hrec.2.1 sc' hsc'
    · intro k b hk
      exact hrec.2.2 k b (relaxOne_doneUB hk)

/-! ### Invariant preservation through one loop iteration -/

theorem astarStep_inv [DecidableEq N] [LinearOrderedAddCommMonoid C]
    {succsOf : N → List (N × C)} {heuristic : N → C} {success : N → Bool}
    {start : N} {st st' : AState N C}
    (hmc : NonnegCosts succsOf)
    (hinv : Inv succsOf heuristic success start st)
    (hstep : astarStep (fun _ n => succsOf n) heuristic success st =
      StepRes.next st') :
    Inv succsOf heuristic success start st' := by
  obtain ⟨hd, rest, e, hpop, hget, hsuccn, hcase⟩ := astarStep_next_inv hstep
  have hspec := popMax_some_spec hpop
  have hExtStep := stepsTo_storeExt hstep
  rcases hcase with ⟨hstale, rfl⟩ | ⟨hnstale, rfl⟩
  · refine ⟨?_, ?_, ?_, ?_, ?_, ?_, ?_⟩
    · exact fun x hx => hinv.idxOk x (hspec.2.1 x hx)
    · exact fun x hx => hinv.queueGe x (hspec.2.1 x hx)
    · exact fun x hx => hinv.estOk x (hspec.2.1 x hx)
    · exact fun x hx => hinv.reachQ x (hspec.2.1 x hx)
    · intro i e' hent
      rcases hinv.openOrDone i e' hent with ⟨hd₂, hm₂, hidx₂, hc₂⟩ | hdone
      · left
        rcases hspec.2.2.1 hd₂ hm₂ with rfl | hrest
        · exfalso
          rw [hidx₂] at hget
          have hee : e = e' := by injection hget.symm.trans hent
          subst hee
          exact absurd hc₂ (not_le.mpr hstale)
        · exact ⟨hd₂, hrest, hidx₂, hc₂⟩
      · exact Or.inr hdone
    · intro i e' hent hsucc'
      obtain ⟨hd₂, hm₂, hidx₂, hc₂⟩ := hinv.predOpen i e' hent hsucc'
      rcases hspec.2.2.1 hd₂ hm₂ with rfl | hrest
      · exfalso
        rw [hidx₂] at hget
        have hee : e = e' := by injection hget.symm.trans hent
        subst hee
        rw [hsuccn] at hsucc'
        exact absurd hsucc' (by simp)
      · exact ⟨hd₂, hrest, hidx₂, hc₂⟩
    · exact hinv.startLow
  · obtain ⟨n₀, p₀, cst⟩ := e
    have hle1 : cst ≤ hd.cost := by
      obtain ⟨e', hent', hle'⟩ := hinv.queueGe hd hspec.1
      have hee : e' = (n₀, p₀, cst) := by injection hent'.symm.trans hget
      rw [hee] at hle'
      exact hle'
    have hcc : cst = hd.cost := le_antisymm hle1 (not_lt.mp hnstale)
    subst hcc
    have hreach0 : ReachFrom succsOf start n₀ hd.cost := by
      obtain ⟨e', hent', hre⟩ := hinv.reachQ hd hspec.1
      have hee : e' = (n₀, p₀, hd.cost) := by injection hent'.symm.trans hget
      rw [hee] at hre
      exact hre
    have hmid : MidInv succsOf heuristic success start hd.index n₀ p₀ hd.cost
        { st with toSee := rest } := by
      refine ⟨hget, ?_, ?_, ?_, ?_, ?_, ?_⟩
      · exact fun x hx => hinv.idxOk x (hspec.2.1 x hx)
      · exact fun x hx => hinv.queueGe x (hspec.2.1 x hx)
      · exact fun x hx => hinv.estOk x (hspec.2.1 x hx)
      · exact fun x hx => hinv.reachQ x (hspec.2.1 x hx)
      · intro i e' hent hne
        rcases hinv.openOrDone i e' hent with ⟨hd₂, hm₂, hidx₂, hc₂⟩ | hdone
        · left
          rcases hspec.2.2.1 hd₂ hm₂ with rfl | hrest
          · exact absurd hidx₂.symm hne
          · exact ⟨hd₂, hrest, hidx₂, hc₂⟩
        · exact Or.inr hdone
      · intro i e' hent hsucc'
        obtain ⟨hd₂, hm₂, hidx₂, hc₂⟩ := hinv.predOpen i e' hent hsucc'
        rcases hspec.2.2.1 hd₂ hm₂ with rfl | hrest
        · exfalso
          rw [hidx₂] at hget
          have hee := hget.symm.trans hent
          injection hee with hee
          rw [← hee] at hsucc'
          rw [hsuccn] at hsucc'
          exact absurd hsucc' (by simp)
        · exact ⟨hd₂, hrest, hidx₂, hc₂⟩
    have hfold := foldl_relax_midInv hreach0 hmc (succsOf n₀)
      { st with toSee := rest } (fun _ hx => hx) hmid
    obtain ⟨⟨hH', hA', hB', hC', hD', hE', hF'⟩, hdoneAll, -⟩ := hfold
    refine ⟨hA', hB', hC', hD', ?_, hF', ?_⟩
    · intro i e' hent
      by_cases hie : i = hd.index
      · subst hie
        have hee : e' = (n₀, p₀, hd.cost) := by injection hent.symm.trans hH'
        subst hee
        exact Or.inr hdoneAll
      · exact hE' i e' hent hie
    · obtain ⟨i, p, c, hent, hc0⟩ := hinv.startLow
      obtain ⟨p', c', hent', hle'⟩ := hExtStep.2 i (start, p, c) hent
      exact ⟨i, p', c', hent', hle'.trans hc0⟩

theorem inv_init [DecidableEq N] [LinearOrderedAddCommMonoid C]
    (succsOf : N → List (N × C)) (heuristic : N → C) (success : N → Bool)
    (start : N) :
    Inv succsOf heuristic success start
      ⟨[⟨0, 0, 0⟩], [(start, USIZE_MAX, 0)]⟩ := by
  have hmem : ∀ hd : SmallestCostHolder C, hd ∈ [(⟨0, 0, 0⟩ : SmallestCostHolder C)] →
      hd = ⟨0, 0, 0⟩ := fun hd hx => List.mem_singleton.mp hx
  have hent0 : ∀ (i : Nat) (e : N × Nat × C),
      ([(start, USIZE_MAX, (0 : C))] : Store N C)[i]? = some e →
        i = 0 ∧ e = (start, USIZE_MAX, 0) := by
    intro i e he
    cases i with
    | zero =>
      rw [List.getElem?_cons_zero] at he
      injection he with he
      exact ⟨rfl, he.symm⟩
    | succ j => rw [List.getElem?_cons_succ] at he; exact absurd he (by simp)
  refine ⟨?_, ?_, ?_, ?_, ?_, ?_, ?_⟩
  · intro hd hx
    rw [hmem hd hx]
    exact Nat.zero_lt_one
  · intro hd hx
    rw [hmem hd hx]
    exact ⟨(start, USIZE_MAX, 0), rfl, le_refl _⟩
  · intro hd hx
    rw [hmem hd hx]
    exact Or.inr ⟨rfl, rfl⟩
  · intro hd hx
    rw [hmem hd hx]
    exact ⟨(start, USIZE_MAX, 0), rfl, ReachFrom.refl _⟩
  · intro i e he
    obtain ⟨rfl, rfl⟩ := hent0 i e he
    exact Or.inl ⟨⟨0, 0, 0⟩, List.mem_singleton_self _, rfl, le_refl _⟩
  · intro i e he hsucc'
    obtain ⟨rfl, rfl⟩ := hent0 i e he
    exact ⟨⟨0, 0, 0⟩, List.mem_singleton_self _, rfl, le_refl _⟩
  · exact ⟨0, USIZE_MAX, 0, rfl, le_refl _⟩

/-! ### The open-list bound along every reachable walk -/

theorem inv_reach_bound [DecidableEq N] [LinearOrderedAddCommMonoid C]
    {succsOf : N → List (N × C)} {heuristic : N → C} {success : N → Bool}
    {start : N} {st : AState N C}
    (hinv : Inv succsOf heuristic success start st) :
    ∀ (y : N) (g : C), ReachFrom succsOf start y g →
      (∃ hd₂ ∈ st.toSee, ∃ e₂, st.parents[hd₂.index]? = some e₂ ∧
        ∃ d, ReachFrom succsOf e₂.1 y d ∧ hd₂.cost + d ≤ g) ∨
      (∃ (i : Nat) (e₂ : N × Nat × C), st.parents[i]? = some e₂ ∧ e₂.1 = y ∧
        e₂.2.2 ≤ g ∧ ∀ sc ∈ succsOf y, doneUB st.parents sc.1 (e₂.2.2 + sc.2)) := by
  intro y g hreach
  induction hreach with
  | refl =>
    obtain ⟨i, p, c, hent, hc0⟩ := hinv.startLow
    rcases hinv.openOrDone i (start, p, c) hent with ⟨hd₂, hm₂, hidx₂, hc₂⟩ | hdone
    · refine Or.inl ⟨hd₂, hm₂, (start, p, c), ?_, 0, ReachFrom.refl _, ?_⟩
      · rw [hidx₂]; exact hent
      · rw [add_zero]; exact hc₂.trans hc0
    · exact Or.inr ⟨i, (start, p, c), hent, rfl, hc0, hdone⟩
  | tail hr hsc ih =>
    rename_i y₁ g₁ sc₁
    rcases ih with ⟨hd₂, hm₂, e₂, hent₂, d, hpath, hbound⟩ |
      ⟨i, e₂, hent₂, hkey, hle₂, hdone₂⟩
    · refine Or.inl ⟨hd₂, hm₂, e₂, hent₂, d + _, ReachFrom.tail hpath hsc, ?_⟩
      rw [← add_assoc]
      exact add_le_add_right hbound _
    · obtain ⟨j, pj, cj, hentj, hcj⟩ := hdone₂ _ hsc
      have hgetj := entry?_some_getElem hentj
      have hcjg := hcj.trans (add_le_add_right hle₂ _)
      rcases hinv.openOrDone j (sc₁.1, pj, cj) hgetj with
        ⟨hd₃, hm₃, hidx₃, hc₃⟩ | hdone₃
      · refine Or.inl ⟨hd₃, hm₃, (sc₁.1, pj, cj), ?_, 0, ReachFrom.refl _, ?_⟩
        · rw [hidx₃]; exact hgetj
        · rw [add_zero]; exact hc₃.trans hcjg
      · exact Or.inr ⟨j, (sc₁.1, pj, cj), hgetj, rfl, hcjg, hdone₃⟩

/-! ### A successful pop is never costlier than any goal walk -/

theorem found_cost_le [DecidableEq N] [LinearOrderedAddCommMonoid C]
    {succsOf : N → List (N × C)} {heuristic : N → C} {success : N → Bool}
    {start : N} {st : AState N C} {hd : SmallestCostHolder C}
    {rest : List (SmallestCostHolder C)}
    (hmc : NonnegCosts succsOf) (hh0 : NonnegHeuristic heuristic)
    (hadm : Admissible succsOf success heuristic)
    (hcons : Consistent succsOf heuristic)
    (hinv : Inv succsOf heuristic success start st)
    (hpop : popMax st.toSee = some (hd, rest)) :
    ∀ (m : N) (g : C), success m = true → ReachFrom succsOf start m g →
      hd.cost ≤ g := by
  intro m g hm hreach
  have hm0 : heuristic m = 0 := heuristic_goal_eq_zero hh0 hadm hm
  have hspec := popMax_some_spec hpop
  have hdle : hd.cost ≤ hd.estimated_cost := by
    rcases hinv.estOk hd hspec.1 with ⟨e', hent', hest⟩ | ⟨hest, hcost⟩
    · rw [hest]; exact le_add_of_nonneg_right (hh0 _)
    · rw [hest, hcost]
  rcases inv_reach_bound hinv m g hreach with
    ⟨hd₂, hm₂, e₂, hent₂, d, hpath, hbound⟩ | ⟨i, e₂, hent₂, hkey, hle₂, -⟩
  · have hest₂ : hd₂.estimated_cost ≤ g := by
      rcases hinv.estOk hd₂ hm₂ with ⟨e₃, hent₃, hest⟩ | ⟨hest, -⟩
      · have he : e₃ = e₂ := by injection hent₃.symm.trans hent₂
        subst he
        rw [hest]
        calc hd₂.cost + heuristic e₃.1
            ≤ hd₂.cost + (d + heuristic m) :=
              add_le_add_left (reach_heuristic_le hcons hpath) _
          _ = (hd₂.cost + d) + heuristic m := by rw [add_assoc]
          _ ≤ g + heuristic m := add_le_add_right hbound _
          _ = g := by rw [hm0, add_zero]
      · rw [hest]
        exact reach_nonneg hmc hreach
    rcases hspec.2.2.1 hd₂ hm₂ with rfl | hrest
    · have h0d : (0 : C) ≤ d := reach_nonneg hmc hpath
      calc hd₂.cost = hd₂.cost + 0 := by rw [add_zero]
        _ ≤ hd₂.cost + d := add_le_add_left h0d _
        _ ≤ g := hbound
    · have hee : hd.estimated_cost ≤ hd₂.estimated_cost :=
        (cmpHolder_ne_lt_iff.mp (hspec.2.2.2 hd₂ hrest)).1
      exact hdle.trans (hee.trans hest₂)
  · obtain ⟨hd₃, hm₃, hidx₃, hc₃⟩ := hinv.predOpen i e₂ hent₂ (by rw [hkey]; exact hm)
    have hcg : hd₃.cost ≤ g := hc₃.trans hle₂
    rcases hspec.2.2.1 hd₃ hm₃ with rfl | hrest
    · exact hcg
    · have hee : hd.estimated_cost ≤ hd₃.estimated_cost :=
        (cmpHolder_ne_lt_iff.mp (hspec.2.2.2 hd₃ hrest)).1
      have hest₃ : hd₃.estimated_cost ≤ g := by
        rcases hinv.estOk hd₃ hm₃ with ⟨e₃, hent₃, hest⟩ | ⟨hest, -⟩
        · have he : e₃ = e₂ := by
            rw [hidx₃] at hent₃
            injection hent₃.symm.trans hent₂
          rw [hest, he, hkey, hm0, add_zero]
          exact hcg
        · rw [hest]
          exact reach_nonneg hmc hreach
      exact hdle.trans (hee.trans hest₃)

theorem astarStep_found_optimal [DecidableEq N] [LinearOrderedAddCommMonoid C]
    {succsOf : N → List (N × C)} {heuristic : N → C} {success : N → Bool}
    {start : N} {st : AState N C} {path : List N} {total : C}
    (hmc : NonnegCosts succsOf) (hh0 : NonnegHeuristic heuristic)
    (hadm : Admissible succsOf success heuristic)
    (hcons : Consistent succsOf heuristic)
    (hinv : Inv succsOf heuristic success start st)
    (hstep : astarStep (fun _ n => succsOf n) heuristic success st =
      StepRes.found path total) :
    (∃ m, success m = true ∧ ReachFrom succsOf start m total) ∧
    (∀ (m : N) (g : C), success m = true → ReachFrom succsOf start m g →
      total ≤ g) := by
  obtain ⟨hd, rest, e, hpop, hget, hsucc, hpath, htotal⟩ := astarStep_found_inv hstep
  subst htotal
  constructor
  · obtain ⟨e', hent', hre⟩ := hinv.reachQ hd (popMax_some_spec hpop).1
    have hee : e' = e := by injection hent'.symm.trans hget
    subst hee
    exact ⟨e'.1, hsucc, hre⟩
  · exact found_cost_le hmc hh0 hadm hcons hinv hpop

theorem astarLoop_found_optimal [DecidableEq N] [LinearOrderedAddCommMonoid C]
    {succsOf : N → List (N × C)} {heuristic : N → C} {success : N → Bool}
    {start : N}
    (hmc : NonnegCosts succsOf) (hh0 : NonnegHeuristic heuristic)
    (hadm : Admissible succsOf success heuristic)
    (hcons : Consistent succsOf heuristic) :
    ∀ {fuel : Nat} {st : AState N C} {path : List N} {total : C},
      Inv succsOf heuristic success start st →
      astarLoop (fun _ n => succsOf n) heuristic success fuel st =
        RunRes.found path total →
      (∃ m, success m = true ∧ ReachFrom succsOf start m total) ∧
      (∀ (m : N) (g : C), success m = true → ReachFrom succsOf start m g →
        total ≤ g) := by
  intro fuel
  induction fuel with
  | zero => intro st path total _ h; simp [astarLoop] at h
  | succ f ih =>
    intro st path total hinv h
    rw [astarLoop] at h
    cases hstep : astarStep (fun _ n => succsOf n) heuristic success st with
    | found p c =>
      rw [hstep] at h
      injection h with h1 h2
      subst h1
      subst h2
      exact astarStep_found_optimal hmc hh0 hadm hcons hinv hstep
    | exhausted => rw [hstep] at h; exact absurd h (by simp)
    | panicked => rw [hstep] at h; exact absurd h (by simp)
    | next st' =>
      rw [hstep] at h
      exact ih (astarStep_inv hmc hinv hstep) h

/-! ### Claim C1: optimality of the returned total cost -/

/-- Claim C1: over the graph induced by a (parent-independent) successor
function with non-negative move costs, with a non-negative admissible and
consistent heuristic, whenever `astar_jps` returns a result its total cost
is achieved by some walk from the start to a node satisfying the success
predicate and is a lower bound of every such walk — it equals the true
minimum cost from the start to any success-satisfying node. -/
theorem claim1_optimality [DecidableEq N] [LinearOrderedAddCommMonoid C]
    (fuel : Nat) (start : N) (succsOf : N → List (N × C)) (heuristic : N → C)
    (success : N → Bool) (path : List N) (total : C)
    (hmc : NonnegCosts succsOf)
    (hh0 : NonnegHeuristic heuristic)
    (hadm : Admissible succsOf success heuristic)
    (hcons : Consistent succsOf heuristic)
    (hrun : astar_jps fuel start (fun _ n => succsOf n) heuristic success =
      RunRes.found path total) :
    (∃ m, success m = true ∧ ReachFrom succsOf start m total) ∧
    (∀ (m : N) (g : C), success m = true → ReachFrom succsOf start m g →
      total ≤ g) := by
  unfold astar_jps at hrun
  exact astarLoop_found_optimal hmc hh0 hadm hcons
    (inv_init succsOf heuristic success start) hrun

theorem wSuccs_nonneg : NonnegCosts wSuccs := by
  intro n sc hmem
  unfold wSuccs at hmem
  by_cases h0 : n = 0
  · rw [if_pos h0] at hmem
    rcases List.mem_singleton.mp hmem with rfl
    decide
  · rw [if_neg h0] at hmem
    exact absurd hmem (by simp)

theorem claim1_optimality_witness :
    (∃ m, (m == 1) = true ∧ ReachFrom wSuccs 0 m 1) ∧
    (∀ (m : Nat) (g : Int), (m == 1) = true → ReachFrom wSuccs 0 m g →
      1 ≤ g) := by
  exact claim1_optimality 5 0 wSuccs (fun _ => 0) (fun n => n == 1) [1, 0] 1
    wSuccs_nonneg (fun n => le_refl 0)
    (fun n m c _ hr => reach_nonneg wSuccs_nonneg hr)
    (fun n sc hsc => by simpa using wSuccs_nonneg n sc hsc)
    (by decide)

end AstarJps
